import Mathlib

/-!
Verification development for the `usbwatch` USB topology/control tool
(`src/usbwatch.py`).  Python strings are modelled as `List Char`, Python
ints as `Int`/`Nat`, raised exceptions as `Option`/`Except` results, and
the hardware (ioctl) layer as an explicit oracle `Hw` together with an
event trace recording which control nodes were opened and which reset /
set-feature ioctls were issued.
-/

/-- Python strings, modelled as lists of characters. -/
abbrev PyStr := List Char

/-- Whitespace characters stripped by Python `str.strip()` / `int()`
(ASCII fragment). -/
def isSpaceChar (c : Char) : Bool :=
  c = ' ' || c = '\t' || c = '\n' || c = '\r' || c = '\x0b' || c = '\x0c'

/-- Python `str.strip()`: remove leading and trailing whitespace. -/
def pyStrip (s : PyStr) : PyStr :=
  ((s.dropWhile isSpaceChar).reverse.dropWhile isSpaceChar).reverse

/-- Python `str.split(sep)` for a one-character separator.  Splitting the
empty string yields `[""]`, exactly as in Python. -/
def pySplit (sep : Char) : PyStr → List PyStr
  | [] => [[]]
  | c :: cs =>
    let r := pySplit sep cs
    if c = sep then [] :: r else (c :: r.headD []) :: r.tail

/-- Python `str.partition(sep)` for a one-character separator: the part
before the first occurrence, the separator (empty if absent), the rest. -/
def pyPartition (sep : Char) : PyStr → PyStr × PyStr × PyStr
  | [] => ([], [], [])
  | c :: cs =>
    if c = sep then ([], [sep], cs)
    else
      let r := pyPartition sep cs
      (c :: r.1, r.2.1, r.2.2)

/-- Decimal digit test. -/
def isDigitCh (c : Char) : Bool := '0' ≤ c && c ≤ '9'

/-- Numeric value of a decimal digit character. -/
def digitVal (c : Char) : Nat := c.toNat - '0'.toNat

/-- Tail of a Python integer literal after its first digit: digits with
single underscores allowed only between digits. -/
def digitsTail : PyStr → Bool
  | [] => true
  | c :: rest =>
    if c = '_' then
      match rest with
      | [] => false
      | d :: _ => isDigitCh d && digitsTail rest
    else isDigitCh c && digitsTail rest

/-- A nonempty digit string with single underscores between digits, i.e.
the digit part accepted by Python `int()`. -/
def digitsOk : PyStr → Bool
  | [] => false
  | c :: rest => isDigitCh c && digitsTail rest

/-- Numeric value of a digit string (underscores ignored). -/
def digitsVal (s : PyStr) : Nat :=
  (s.filter (fun c => c ≠ '_')).foldl (fun a c => 10 * a + digitVal c) 0

/-- Python `int(str)` (ASCII fragment): strip outer whitespace, one
optional sign, then digits with underscores between digits; `none`
models the `ValueError` raised on anything else. -/
def pyInt (s : PyStr) : Option Int :=
  match pyStrip s with
  | [] => none
  | c :: rest =>
    if c = '+' then (if digitsOk rest then some ((digitsVal rest : Int)) else none)
    else if c = '-' then
      (if digitsOk rest then some (-((digitsVal rest : Nat) : Int)) else none)
    else if digitsOk (c :: rest) then some ((digitsVal (c :: rest) : Int)) else none

/-- Convert every element of a list of strings with Python `int`,
failing (like the generator in `parse_location`) if any conversion
fails. -/
def intAll : List PyStr → Option (List Int)
  | [] => some []
  | s :: rest =>
    match pyInt s, intAll rest with
    | some v, some vs => some (v :: vs)
    | _, _ => none

/-- Model of `parse_location` (usbwatch.py lines 183-190): strip, drop
one `:suffix` tail, split on the first `-` into bus and dotted port
path, convert every field with `int`.  `none` models the uncaught
`ValueError`. -/
def parse_location (txt : PyStr) : Option (List Int) :=
  let t := (pySplit ':' (pyStrip txt)).headD []
  let p := pyPartition '-' t
  match pyInt p.1 with
  | none => none
  | some bus =>
    match intAll (pySplit '.' p.2.2) with
    | none => none
    | some pns => some (bus :: pns)

/-- Bus field of the location text, as cut out by `parse_location`. -/
def busField (txt : PyStr) : PyStr :=
  (pyPartition '-' ((pySplit ':' (pyStrip txt)).headD [])).1

/-- Port-path fields of the location text, as cut out by
`parse_location`. -/
def portFields (txt : PyStr) : List PyStr :=
  pySplit '.' (pyPartition '-' ((pySplit ':' (pyStrip txt)).headD [])).2.2

/-- Decimal digits of a natural number (fuel-based so that it reduces in
the kernel); mirrors Python `str(n)` for `n ≥ 0`. -/
def natReprAux : Nat → Nat → PyStr
  | _, 0 => []
  | n, fuel + 1 =>
    if n < 10 then [Char.ofNat ('0'.toNat + n)]
    else natReprAux (n / 10) fuel ++ [Char.ofNat ('0'.toNat + n % 10)]

/-- Decimal representation of a natural number. -/
def natRepr (n : Nat) : PyStr := natReprAux n (n + 1)

/-- Python `str(i)` for an integer. -/
def intRepr (i : Int) : PyStr :=
  if i < 0 then '-' :: natRepr (-i).toNat else natRepr i.toNat

/-- Python `f'{d:02d}'`: zero-pad to width two. -/
def pad2 (i : Int) : PyStr :=
  let s := intRepr i
  if s.length < 2 then '0' :: s else s

/-- Hex digit character (lowercase). -/
def hexDigitCh (n : Nat) : Char :=
  if n < 10 then Char.ofNat ('0'.toNat + n) else Char.ofNat ('a'.toNat + (n - 10))

/-- Lowercase hexadecimal digits of a natural number (fuel-based). -/
def natHexAux : Nat → Nat → PyStr
  | _, 0 => []
  | n, fuel + 1 =>
    if n < 16 then [hexDigitCh n]
    else natHexAux (n / 16) fuel ++ [hexDigitCh (n % 16)]

/-- Python `f'{n:04x}'` for a natural number: zero-padded lowercase hex. -/
def pad4x (n : Nat) : PyStr :=
  let s := natHexAux n (n + 1)
  List.replicate (4 - s.length) '0' ++ s

/-- Python `f'{s:<w>s}'`: left-justify, pad with spaces to the width. -/
def ljust (w : Nat) (s : PyStr) : PyStr := s ++ List.replicate (w - s.length) ' '

/-- Python `sep.join(parts)` for a one-character separator. -/
def joinSep (sep : Char) : List PyStr → PyStr
  | [] => []
  | [s] => s
  | s :: rest => s ++ sep :: joinSep sep rest

/-- Model of the pure decoding part of `usb_hub_port_status`
(usbwatch.py lines 140-149): flag characters appended in source order
from the 16-bit `wPortStatus` word; the Power bit is 0x0100 for
usb_level ≤ 2 and 0x0200 (the USB 3 renumbering) for usb_level 3. -/
def usb_port_status_flags (w : Nat) (lvl : Nat) : List Char :=
  (if lvl ≤ 2 && (w &&& 0x0100 != 0) then ['P'] else []) ++
  (if lvl == 3 && (w &&& 0x0200 != 0) then ['P'] else []) ++
  (if w &&& 0x0001 != 0 then ['C'] else []) ++
  (if w &&& 0x0002 != 0 then ['E'] else []) ++
  (if w &&& 0x0010 != 0 then ['R'] else []) ++
  (if w &&& 0x0004 != 0 then ['S'] else [])

/-- Errors: the distinguishable exception outcomes of the modelled
Python code.  `parseError` is the `ValueError` from `int()` inside
`parse_location`; `portNotFound`, `deviceNotEnumerated` and
`hubNeverEnumerated` are the explicit `ValueError`s of
`soft_reset`/`set_feature` (identified by their messages);
`typeError` is the `TypeError` from `'dev' not in None`; `keyError`
is a missing-`'dev'`-key access; `osError` stands for a failed
`open` or uncaught `ioctl` failure. -/
inductive Err where
  | parseError
  | portNotFound
  | deviceNotEnumerated
  | hubNeverEnumerated
  | typeError
  | keyError
  | osError
deriving DecidableEq, Repr

/-- Hardware-touching events, in the order they happen: opening a
device control node (`open(usb_filename(dev), 'w+')`), the
`USBDEVFS_RESET` ioctl, and the SET/CLEAR_FEATURE control transfer. -/
inductive Ev where
  | openCtl (dv : Nat)
  | ioctlReset (dv : Nat)
  | ioctlFeature (dv : Nat) (port : Int) (feature : Nat) (value : Bool)
deriving DecidableEq, Repr

/-- Hardware oracle: what the kernel answers for each device (devices
are identified by a numeric id standing for the pyusb device object).
`numports dv lvl = none` models `usb_hub_numports` swallowing any
exception and returning `None`; `portStatusWord dv pn = none` models an
uncaught ioctl failure inside `usb_hub_port_status`; `openOk dv =
false` models `open` raising (e.g. permission denied). -/
structure Hw where
  openOk : Nat → Bool
  numports : Nat → Nat → Option Nat
  portStatusWord : Nat → Nat → Option Nat
  featureOk : Nat → Bool
  resetOk : Nat → Bool

/-- One record of the `ports` list built by `list_usbports`.  Python
uses a dict; absent keys are `none`/`false` here.  The `bus`,
`port_number` and `address` keys of the source are stored but never
read back by the modelled operations, so they are omitted. -/
structure PortRec where
  dev : Option Nat := none
  location : List Int := []
  usb_level : Nat := 0
  is_hub : Bool := false
  numports : Option Nat := none
  port_status : Option (List Char) := none
  name : Option PyStr := none
  serial_number : Option PyStr := none
  product : Option PyStr := none
  manufacturer : Option PyStr := none
  vidpid : Option (Nat × Nat) := none
deriving DecidableEq, Repr

instance : Inhabited PortRec := ⟨{}⟩

/-- Python truthiness of an optional string (`None` and `''` are
falsy). -/
def truthy (o : Option PyStr) : Bool :=
  match o with
  | none => false
  | some s => !s.isEmpty

/-- Model of `find(ports, 'location', loc)` (usbwatch.py lines 66-69):
index of the first record whose location equals `loc`. -/
def find_loc : List PortRec → List Int → Option Nat
  | [], _ => none
  | e :: rest, l =>
    if e.location = l then some 0 else (find_loc rest l).map (fun j => j + 1)

/-- In-place mutation of the record at an index (Python dict update). -/
def updateAt (j : Nat) (f : PortRec → PortRec) : List PortRec → List PortRec
  | [] => []
  | e :: rest =>
    match j with
    | 0 => f e :: rest
    | j' + 1 => e :: updateAt j' f rest

/-- Inner loop of `update_hubs` (usbwatch.py lines 213-222): read each
port's status word, decode it, and either attach it to the record
already at `location + (portnum,)` or append a ghost record holding
only the location and status. -/
def port_scan (hw : Hw) (dv lvl : Nat) (loc : List Int) :
    List Nat → List PortRec → Except Err (List PortRec)
  | [], st => .ok st
  | pn :: rest, st =>
    match hw.portStatusWord dv pn with
    | none => .error .osError
    | some w =>
      let flags := usb_port_status_flags w lvl
      let ploc := loc ++ [(pn : Int)]
      match find_loc st ploc with
      | some j =>
        port_scan hw dv lvl loc rest
          (updateAt j (fun e => { e with port_status := some flags }) st)
      | none =>
        port_scan hw dv lvl loc rest
          (st ++ [{ location := ploc, port_status := some flags }])

/-- Body of `update_hubs` for a single snapshot entry (usbwatch.py
lines 203-222): non-hubs are skipped; for a hub the control node is
opened (an exception aborts everything), the hub descriptor is read
(`None` means `continue` with the state untouched), otherwise the
`numports` key is set and ports `1..n` are scanned. -/
def hub_step (hw : Hw) (st : List PortRec) (i : Nat) :
    List Ev × Except Err (List PortRec) :=
  match st[i]? with
  | none => ([], .ok st)
  | some d =>
    if d.is_hub then
      match d.dev with
      | none => ([], .error .keyError)
      | some dv =>
        if hw.openOk dv then
          match hw.numports dv d.usb_level with
          | none => ([.openCtl dv], .ok st)
          | some n =>
            ([.openCtl dv],
             port_scan hw dv d.usb_level d.location (List.range' 1 n)
               (updateAt i (fun e => { e with numports := some n }) st))
        else ([], .error .osError)
    else ([], .ok st)

/-- Sequential processing of the snapshot indices by `update_hubs`;
appended ghosts are never in the snapshot, so only the original
indices are visited. -/
def run_hubs (hw : Hw) : List Nat → List PortRec → List Ev × Except Err (List PortRec)
  | [], st => ([], .ok st)
  | i :: rest, st =>
    let r := hub_step hw st i
    match r.2 with
    | .error e => (r.1, .error e)
    | .ok st' =>
      let r2 := run_hubs hw rest st'
      (r.1 ++ r2.1, r2.2)

/-- Model of `update_hubs` (usbwatch.py lines 202-222). -/
def update_hubs (hw : Hw) (ports : List PortRec) : List Ev × Except Err (List PortRec) :=
  run_hubs hw (List.range ports.length) ports

/-- One pyusb device as returned by `usb.core.find`; the optional
string descriptors already reflect the throwaway `try/except` wrappers
`device_serial` / `device_product` / `device_manufacturer`. -/
structure OsDev where
  devId : Nat := 0
  bus : Nat := 0
  port_numbers : List Nat := []
  bcdUSB : Nat := 0
  idVendor : Nat := 0
  idProduct : Nat := 0
  serial_number : Option PyStr := none
  product : Option PyStr := none
  manufacturer : Option PyStr := none
  bDeviceClass : Nat := 0
deriving DecidableEq, Repr

/-- One entry of `serial.tools.list_ports.comports()`. -/
structure ComInfo where
  vid : Option Nat := none
  pid : Option Nat := none
  location : PyStr := []
  name : PyStr := []
deriving DecidableEq, Repr

/-- Environment snapshot: the flat OS device list and the serial-port
list. -/
structure Env where
  devices : List OsDev := []
  comports : List ComInfo := []

/-- Record built for one enumerated device (usbwatch.py lines 226-249);
`USB_CLASS_HUB = 0x09`, `usb_level` is the top byte of `bcdUSB`, and
truthy product/manufacturer strings are stripped. -/
def enum_record (dv : OsDev) : PortRec :=
  { dev := some dv.devId,
    location := (dv.bus : Int) :: dv.port_numbers.map (fun n => (n : Int)),
    usb_level := dv.bcdUSB >>> 8,
    vidpid := some (dv.idVendor, dv.idProduct),
    serial_number := dv.serial_number,
    product := dv.product.map (fun s => if s.isEmpty then s else pyStrip s),
    manufacturer := dv.manufacturer.map (fun s => if s.isEmpty then s else pyStrip s),
    is_hub := dv.bDeviceClass == 0x09 }

/-- One iteration of `update_comports` (usbwatch.py lines 192-200):
entries without vid/pid are skipped; otherwise the self-reported
location string is parsed (an uncaught parse failure aborts, modelled
as `none`) and, when it resolves to a record, the serial device name is
appended (space-separated if a name is already present). -/
def com_step (ports : List PortRec) (info : ComInfo) : Option (List PortRec) :=
  if info.vid.isSome && info.pid.isSome then
    match parse_location info.location with
    | none => none
    | some loc =>
      match find_loc ports loc with
      | some j =>
        some (updateAt j
          (fun e =>
            if truthy e.name then { e with name := some (e.name.getD [] ++ ' ' :: info.name) }
            else { e with name := some info.name }) ports)
      | none => some ports
  else some ports

/-- Model of `update_comports` over the serial-port list. -/
def update_comports : List ComInfo → List PortRec → Option (List PortRec)
  | [], ports => some ports
  | info :: rest, ports =>
    match com_step ports info with
    | none => none
    | some ports' => update_comports rest ports'

/-- Model of `list_usbports` (usbwatch.py lines 224-252): enumerate,
expand hubs, match serial ports; the trace records the control nodes
opened during hub expansion. -/
def list_usbports (hw : Hw) (env : Env) : List Ev × Except Err (List PortRec) :=
  let ports0 := env.devices.map enum_record
  let r := update_hubs hw ports0
  match r.2 with
  | .error e => (r.1, .error e)
  | .ok ports1 =>
    match update_comports env.comports ports1 with
    | none => (r.1, .error .parseError)
    | some ports2 => (r.1, .ok ports2)

/-- Model of `soft_reset` (usbwatch.py lines 522-530): rebuild the
topology, parse the location, look the target itself up, require its
`'dev'` key, then open its control node and issue `USBDEVFS_RESET`. -/
def soft_reset (hw : Hw) (env : Env) (txt : PyStr) : List Ev × Except Err Unit :=
  let b := list_usbports hw env
  match b.2 with
  | .error e => (b.1, .error e)
  | .ok ports =>
    match parse_location txt with
    | none => (b.1, .error .parseError)
    | some loc =>
      match find_loc ports loc with
      | none => (b.1, .error .portNotFound)
      | some j =>
        match (ports.getD j {}).dev with
        | none => (b.1, .error .deviceNotEnumerated)
        | some dv =>
          if hw.openOk dv then
            (b.1 ++ [.openCtl dv, .ioctlReset dv],
             if hw.resetOk dv then .ok () else .error .osError)
          else (b.1, .error .osError)

/-- Model of `set_feature` (usbwatch.py lines 532-541): rebuild the
topology, parse, check the target exists, then look up the parent
(location with the last segment dropped); `find` returning `None`
makes `'dev' not in d` raise `TypeError`; a parent without a bound
device raises the hub-never-enumerated `ValueError`; otherwise the
parent's control node is opened and the feature ioctl issued at the
target's last port number. -/
def set_feature (hw : Hw) (env : Env) (txt : PyStr) (feature : Nat) (value : Bool) :
    List Ev × Except Err Unit :=
  let b := list_usbports hw env
  match b.2 with
  | .error e => (b.1, .error e)
  | .ok ports =>
    match parse_location txt with
    | none => (b.1, .error .parseError)
    | some loc =>
      match find_loc ports loc with
      | none => (b.1, .error .portNotFound)
      | some _ =>
        match find_loc ports loc.dropLast with
        | none => (b.1, .error .typeError)
        | some j =>
          match (ports.getD j {}).dev with
          | none => (b.1, .error .hubNeverEnumerated)
          | some dv =>
            if hw.openOk dv then
              (b.1 ++ [.openCtl dv, .ioctlFeature dv (loc.getLastD 0) feature value],
               if hw.featureOk dv then .ok () else .error .osError)
            else (b.1, .error .osError)

/-- Strict lexicographic order on locations, i.e. Python `<` on int
tuples: elementwise with a strict prefix below its extensions. -/
def locLt : List Int → List Int → Bool
  | [], [] => false
  | [], _ :: _ => true
  | _ :: _, [] => false
  | x :: xs, y :: ys => decide (x < y) || (x == y && locLt xs ys)

/-- Reflexive closure used to state sortedness: `a ≤ b` iff not
`b < a`. -/
def locLe (a b : List Int) : Bool := !locLt b a

/-- Stable insertion step of the sort in `describe_ports` (Python
`list.sort(key=location)`). -/
def insLoc (x : PortRec) : List PortRec → List PortRec
  | [] => [x]
  | y :: ys => if locLt x.location y.location then x :: y :: ys else y :: insLoc x ys

/-- Stable sort of the port list by location. -/
def sortPorts : List PortRec → List PortRec
  | [] => []
  | x :: xs => insLoc x (sortPorts xs)

/-- Address column of a listing line (usbwatch.py lines 270-273):
the bus, then `-` and the two-digit-padded port numbers joined with
`.` when the port path is nonempty. -/
def format_address (loc : List Int) : PyStr :=
  match loc with
  | [] => []
  | b :: ports =>
    let a := intRepr b
    let pn := joinSep '.' (ports.map pad2)
    if pn = [] then a else a ++ '-' :: pn

/-- One rendered line of `describe_ports` (usbwatch.py lines 270-289),
for a record that survived the hub filter. -/
def render_line (d : PortRec) : PyStr :=
  let address := format_address d.location
  let product1 : PyStr :=
    if d.vidpid = none then []
    else if d.is_hub then 'H' :: 'u' :: 'b' :: []
    else if !truthy d.product then ['?']
    else d.product.getD []
  let product2 :=
    if truthy d.serial_number then
      product1 ++ ' ' :: '(' :: (d.serial_number.getD [] ++ [')'])
    else product1
  let product3 :=
    if truthy d.manufacturer then d.manufacturer.getD [] ++ ' ' :: product2
    else product2
  let product4 :=
    if truthy d.name then d.name.getD [] ++ ' ' :: '-' :: ' ' :: product3
    else product3
  let vidstr : PyStr :=
    match d.vidpid with
    | some vp => pad4x vp.1 ++ ':' :: pad4x vp.2
    | none => []
  let status := '[' :: (d.port_status.getD [] ++ [']'])
  ljust 13 address ++ ' ' :: (ljust 5 status ++ ' ' :: (vidstr ++ ' ' :: product4))

/-- The records that `describe_ports` renders, in order: sorted by
location, hubs excluded (the `continue` in usbwatch.py line 269). -/
def describe_entries (ports : List PortRec) : List PortRec :=
  (sortPorts ports).filter (fun d => !d.is_hub)

/-- Model of `describe_ports` (usbwatch.py lines 254-290): the rendered
lines. -/
def describe_ports (ports : List PortRec) : List PyStr :=
  (describe_entries ports).map render_line

/-- True iff `l` is an immediate child location of `parent`
(`l = parent ++ [k]` for some port number `k`). -/
def childOf (parent l : List Int) : Bool := !l.isEmpty && l.dropLast == parent

/-- Records of `st` sitting at exactly location `l`. -/
def entriesAt (st : List PortRec) (l : List Int) : List PortRec :=
  st.filter (fun e => e.location = l)

/-- Locations of a port list. -/
def locsOf (st : List PortRec) : List (List Int) := st.map (fun e => e.location)

/-- Bound device of the record at location `l`, if any (`none` both for
a ghost record and for an absent location). -/
def devAt (st : List PortRec) (l : List Int) : Option Nat :=
  match find_loc st l with
  | some j => (st.getD j {}).dev
  | none => none


/-! ### String-model lemmas -/

theorem pySplit_ne_nil (sep : Char) (s : PyStr) : pySplit sep s ≠ [] := by
  cases s with
  | nil => simp [pySplit]
  | cons c cs => by_cases hc : c = sep <;> simp [pySplit, hc]

theorem pySplit_no_sep {sep : Char} {s : PyStr} (h : sep ∉ s) : pySplit sep s = [s] := by
  induction s with
  | nil => simp [pySplit]
  | cons c cs ih =>
    have hc : c ≠ sep := fun hc => h (hc ▸ List.mem_cons_self c cs)
    have hcs : sep ∉ cs := fun hm => h (List.mem_cons_of_mem c hm)
    simp [pySplit, hc, ih hcs]

theorem pySplit_append_sep {sep : Char} {a : PyStr} (b : PyStr) (h : sep ∉ a) :
    pySplit sep (a ++ sep :: b) = a :: pySplit sep b := by
  induction a with
  | nil => simp [pySplit]
  | cons c cs ih =>
    have hc : c ≠ sep := fun hc => h (hc ▸ List.mem_cons_self c cs)
    have hcs : sep ∉ cs := fun hm => h (List.mem_cons_of_mem c hm)
    rw [List.cons_append]
    simp [pySplit, hc, ih hcs]

theorem pyPartition_no_sep {sep : Char} {t : PyStr} (h : sep ∉ t) :
    pyPartition sep t = (t, [], []) := by
  induction t with
  | nil => simp [pyPartition]
  | cons c cs ih =>
    have hc : c ≠ sep := fun hc => h (hc ▸ List.mem_cons_self c cs)
    have hcs : sep ∉ cs := fun hm => h (List.mem_cons_of_mem c hm)
    simp [pyPartition, hc, ih hcs]

theorem pyPartition_first {sep : Char} {a : PyStr} (b : PyStr) (h : sep ∉ a) :
    pyPartition sep (a ++ sep :: b) = (a, [sep], b) := by
  induction a with
  | nil => simp [pyPartition]
  | cons c cs ih =>
    have hc : c ≠ sep := fun hc => h (hc ▸ List.mem_cons_self c cs)
    have hcs : sep ∉ cs := fun hm => h (List.mem_cons_of_mem c hm)
    rw [List.cons_append]
    simp [pyPartition, hc, ih hcs]

theorem mem_pyStrip {s : PyStr} {c : Char} (h : c ∈ pyStrip s) : c ∈ s := by
  unfold pyStrip at h
  rw [List.mem_reverse] at h
  have h1 := (List.dropWhile_sublist (l := (s.dropWhile isSpaceChar).reverse) isSpaceChar).mem h
  rw [List.mem_reverse] at h1
  exact (List.dropWhile_sublist (l := s) isSpaceChar).mem h1

theorem mem_pySplit_head {sep : Char} {s : PyStr} {c : Char}
    (h : c ∈ (pySplit sep s).headD []) : c ∈ s := by
  induction s with
  | nil => simp [pySplit] at h
  | cons x cs ih =>
    by_cases hx : x = sep
    · simp [pySplit, hx] at h
    · simp [pySplit, hx] at h
      rcases h with h | h
      · exact h ▸ List.mem_cons_self x cs
      · exact List.mem_cons_of_mem x (ih (by simpa using h))

theorem dropWhile_all_false {p : Char → Bool} {l : PyStr}
    (h : ∀ c ∈ l, p c = false) : l.dropWhile p = l := by
  cases l with
  | nil => rfl
  | cons c cs => rw [List.dropWhile_cons, h c (List.mem_cons_self c cs)]; simp

theorem pyStrip_noop {s : PyStr} (h : ∀ c ∈ s, isSpaceChar c = false) : pyStrip s = s := by
  unfold pyStrip
  rw [dropWhile_all_false h,
    dropWhile_all_false (fun c hc => h c (List.mem_reverse.mp hc)), List.reverse_reverse]

theorem dropWhile_append_mid {p : Char → Bool} {m : Char} (x y : PyStr)
    (hm : p m = false) : (x ++ m :: y).dropWhile p = x.dropWhile p ++ m :: y := by
  induction x with
  | nil => simp [List.dropWhile_cons, hm]
  | cons c cs ih =>
    rw [List.cons_append, List.dropWhile_cons, List.dropWhile_cons]
    by_cases hc : p c <;> simp [hc, ih]

theorem pyStrip_append_tail {a : PyStr} (m : Char) (b : PyStr)
    (ha : ∀ c ∈ a, isSpaceChar c = false) (hm : isSpaceChar m = false) :
    pyStrip (a ++ m :: b) = a ++ m :: (b.reverse.dropWhile isSpaceChar).reverse := by
  have h1 : (a ++ m :: b).dropWhile isSpaceChar = a ++ m :: b := by
    cases a with
    | nil => simp [List.dropWhile_cons, hm]
    | cons c cs =>
      rw [List.cons_append, List.dropWhile_cons, ha c (List.mem_cons_self c cs)]
      simp
  unfold pyStrip
  rw [h1, List.reverse_append, List.reverse_cons, List.append_assoc]
  simp only [List.singleton_append]
  rw [dropWhile_append_mid _ _ hm, List.reverse_append]
  simp

/-! ### Digit-string and integer-conversion lemmas -/

/-- A nonempty string of plain decimal digits (no sign, no underscore). -/
def pureDigits (s : PyStr) : Bool := !s.isEmpty && s.all isDigitCh

theorem digit_char_props {c : Char} (h : isDigitCh c = true) :
    c ≠ '-' ∧ c ≠ '.' ∧ c ≠ ':' ∧ c ≠ '_' ∧ c ≠ '+' ∧ isSpaceChar c = false := by
  unfold isDigitCh at h
  rw [Bool.and_eq_true, decide_eq_true_eq, decide_eq_true_eq] at h
  refine ⟨?_, ?_, ?_, ?_, ?_, ?_⟩
  · rintro rfl; revert h; decide
  · rintro rfl; revert h; decide
  · rintro rfl; revert h; decide
  · rintro rfl; revert h; decide
  · rintro rfl; revert h; decide
  · unfold isSpaceChar
    obtain ⟨h1, h2⟩ := h
    have hv1 : '0'.toNat ≤ c.toNat := h1
    have hsp : c ≠ ' ' := by rintro rfl; revert h1; decide
    have ht : c ≠ '\t' := by rintro rfl; revert h1; decide
    have hn : c ≠ '\n' := by rintro rfl; revert h1; decide
    have hr : c ≠ '\r' := by rintro rfl; revert h1; decide
    have hb : c ≠ '\x0b' := by rintro rfl; revert h1; decide
    have hf : c ≠ '\x0c' := by rintro rfl; revert h1; decide
    simp [hsp, ht, hn, hr, hb, hf]

theorem digitsTail_of_digits {s : PyStr} (h : ∀ c ∈ s, isDigitCh c = true) :
    digitsTail s = true := by
  induction s with
  | nil => rfl
  | cons c cs ih =>
    have hc := h c (List.mem_cons_self c cs)
    have hu := (digit_char_props hc).2.2.2.1
    unfold digitsTail
    simp only [hu, if_false]
    rw [hc, ih (fun d hd => h d (List.mem_cons_of_mem c hd))]
    rfl

theorem digitsOk_of_pure {s : PyStr} (h : pureDigits s = true) : digitsOk s = true := by
  unfold pureDigits at h
  rw [Bool.and_eq_true, List.all_eq_true] at h
  obtain ⟨hne, hall⟩ := h
  cases s with
  | nil => simp at hne
  | cons c cs =>
    show (isDigitCh c && digitsTail cs) = true
    rw [hall c (List.mem_cons_self c cs),
      digitsTail_of_digits (fun d hd => hall d (List.mem_cons_of_mem c hd))]
    rfl

theorem pyInt_pure {s : PyStr} (h : pureDigits s = true) :
    pyInt s = some ((digitsVal s : Nat) : Int) := by
  unfold pureDigits at h
  rw [Bool.and_eq_true, List.all_eq_true] at h
  obtain ⟨hne, hall⟩ := h
  have hstrip : pyStrip s = s :=
    pyStrip_noop (fun c hc => (digit_char_props (hall c hc)).2.2.2.2.2)
  cases s with
  | nil => simp at hne
  | cons c cs =>
    have hc := hall c (List.mem_cons_self c cs)
    have hok : digitsOk (c :: cs) = true := by
      apply digitsOk_of_pure
      unfold pureDigits
      rw [Bool.and_eq_true, List.all_eq_true]
      exact ⟨rfl, hall⟩
    unfold pyInt
    rw [hstrip]
    simp [(digit_char_props hc).2.2.2.2.1, (digit_char_props hc).1, hok]

theorem intAll_eq_none {L : List PyStr} :
    intAll L = none ↔ ∃ t ∈ L, pyInt t = none := by
  induction L with
  | nil => simp [intAll]
  | cons s rest ih =>
    unfold intAll
    cases hs : pyInt s with
    | none => simp [hs]
    | some v =>
      cases hr : intAll rest with
      | none =>
        simp only [List.exists_mem_cons_iff, hs]
        rw [iff_true_intro (ih.mp hr)]
        simp
      | some vs =>
        have : ¬ ∃ t ∈ rest, pyInt t = none := fun hx => by
          rw [← ih] at hx; rw [hx] at hr; cases hr
        simp [hs, this]

theorem intAll_map {L : List Int} {f : Int → PyStr}
    (h : ∀ v ∈ L, pyInt (f v) = some v) : intAll (L.map f) = some L := by
  induction L with
  | nil => rfl
  | cons v vs ih =>
    unfold intAll
    rw [List.map_cons]
    show (match pyInt (f v), intAll (vs.map f) with
      | some a, some as => some (a :: as)
      | _, _ => none) = some (v :: vs)
    rw [h v (List.mem_cons_self v vs),
      ih (fun u hu => h u (List.mem_cons_of_mem v hu))]

/-! ### Decimal representation lemmas -/

theorem natReprAux_congr : ∀ (f1 n f2 : Nat), n < f1 → n < f2 →
    natReprAux n f1 = natReprAux n f2 := by
  intro f1
  induction f1 with
  | zero => intro n f2 h1 _; exact absurd h1 (Nat.not_lt_zero n)
  | succ g1 ih =>
    intro n f2 h1 h2
    cases f2 with
    | zero => exact absurd h2 (Nat.not_lt_zero n)
    | succ g2 =>
      by_cases hn : n < 10
      · simp [natReprAux, hn]
      · simp only [natReprAux, if_neg hn]
        rw [ih (n / 10) g2 (by omega) (by omega)]

theorem natRepr_unfold (n : Nat) : natRepr n =
    if n < 10 then [Char.ofNat ('0'.toNat + n)]
    else natRepr (n / 10) ++ [Char.ofNat ('0'.toNat + n % 10)] := by
  show natReprAux n (n + 1) = _
  by_cases hn : n < 10
  · simp [natReprAux, hn]
  · simp only [natReprAux, if_neg hn]
    rw [natReprAux_congr n (n / 10) (n / 10 + 1) (by omega) (by omega)]
    rfl

theorem isDigitCh_ofNat {m : Nat} (h : m < 10) :
    isDigitCh (Char.ofNat ('0'.toNat + m)) = true := by
  interval_cases m <;> decide

theorem digitVal_ofNat {m : Nat} (h : m < 10) :
    digitVal (Char.ofNat ('0'.toNat + m)) = m := by
  interval_cases m <;> decide

theorem natRepr_all_digits (n : Nat) : ∀ c ∈ natRepr n, isDigitCh c = true := by
  induction n using Nat.strong_induction_on with
  | _ n ih =>
    intro c hc
    rw [natRepr_unfold] at hc
    by_cases hn : n < 10
    · rw [if_pos hn] at hc
      simp only [List.mem_singleton] at hc
      exact hc ▸ isDigitCh_ofNat hn
    · rw [if_neg hn] at hc
      rcases List.mem_append.mp hc with h | h
      · exact ih (n / 10) (Nat.div_lt_self (by omega) (by omega)) c h
      · simp only [List.mem_singleton] at h
        exact h ▸ isDigitCh_ofNat (Nat.mod_lt _ (by omega))

theorem natRepr_ne_nil (n : Nat) : natRepr n ≠ [] := by
  rw [natRepr_unfold]
  by_cases hn : n < 10 <;> simp [hn]

theorem digitsVal_append_digit (a : PyStr) {c : Char} (hc : c ≠ '_') :
    digitsVal (a ++ [c]) = 10 * digitsVal a + digitVal c := by
  unfold digitsVal
  rw [List.filter_append, List.foldl_append]
  have hfc : List.filter (fun x => decide ¬(x = '_')) [c] = [c] := by
    simp [hc]
  rw [hfc]
  rfl

theorem digitsVal_natRepr (n : Nat) : digitsVal (natRepr n) = n := by
  induction n using Nat.strong_induction_on with
  | _ n ih =>
    rw [natRepr_unfold]
    by_cases hn : n < 10
    · rw [if_pos hn]
      have hc := (digit_char_props (isDigitCh_ofNat hn)).2.2.2.1
      have h1 := digitsVal_append_digit [] hc
      simp only [List.nil_append] at h1
      rw [h1]
      have h0 : digitsVal [] = 0 := rfl
      rw [h0, digitVal_ofNat hn]
      omega
    · rw [if_neg hn]
      have hm : n % 10 < 10 := Nat.mod_lt _ (by omega)
      have hc := (digit_char_props (isDigitCh_ofNat hm)).2.2.2.1
      rw [digitsVal_append_digit _ hc, ih (n / 10) (Nat.div_lt_self (by omega) (by omega)),
        digitVal_ofNat hm]
      omega

theorem pureDigits_natRepr (n : Nat) : pureDigits (natRepr n) = true := by
  unfold pureDigits
  rw [Bool.and_eq_true, List.all_eq_true]
  constructor
  · cases h : natRepr n with
    | nil => exact absurd h (natRepr_ne_nil n)
    | cons c cs => rfl
  · exact natRepr_all_digits n

theorem pyInt_natRepr (n : Nat) : pyInt (natRepr n) = some ((n : Nat) : Int) := by
  rw [pyInt_pure (pureDigits_natRepr n), digitsVal_natRepr]

/-! ### Bit-position lemma -/

theorem and_two_pow_ne (w i : Nat) : (w &&& 2 ^ i != 0) = w.testBit i := by
  rw [Nat.and_two_pow]
  cases h : w.testBit i <;> simp [h, Nat.pow_eq_zero]

/-! ### Claim C5 -/

theorem parse_location_eq (txt : PyStr) :
    parse_location txt =
      match pyInt (busField txt) with
      | none => none
      | some bus =>
        match intAll (portFields txt) with
        | none => none
        | some pns => some (bus :: pns) := rfl

/-- Claim C5 (corrected).  The claim says a bare bus string like "1"
parses to the root Location with empty port path; in fact
`parse_location` fails on every string that contains no `-` (the empty
port-path field splits into a single empty segment whose `int()`
conversion raises `ValueError`), so root locations are not expressible
in the accepted location grammar. -/
theorem claim_C5 (s : PyStr) (h : '-' ∉ s) : parse_location s = none := by
  rw [parse_location_eq]
  have hdash : '-' ∉ ((pySplit ':' (pyStrip s)).headD []) :=
    fun hm => h (mem_pyStrip (mem_pySplit_head hm))
  have hp : portFields s = [[]] := by
    unfold portFields
    rw [pyPartition_no_sep hdash]
    rfl
  have hnone : intAll (portFields s) = none := by rw [hp]; rfl
  rw [hnone]
  cases pyInt (busField s) <;> rfl

/-- Witness for C5 at the concrete input "1". -/
theorem claim_C5_witness :
    ('-' ∉ "1".toList) ∧ parse_location ("1".toList) = none :=
  ⟨by decide, claim_C5 ("1".toList) (by decide)⟩

/-- Counterexample to C5 as stated: parsing the bare bus string "1"
does not succeed — it raises `ValueError` (modelled as `none`) instead
of returning the root Location `(1,)`. -/
theorem claim_C5_counterexample : parse_location ("1".toList) = none := by decide

/-! ### Claim C6 -/

/-- Claim C6 (corrected).  `parse_location` fails exactly when Python
`int()` rejects the bus field or some port segment — which covers the
empty string, an empty bus field and non-numeric segments — but the
original "exactly ... non-negative integer" condition is wrong:
segments that are signed Python integer literals are accepted, so
"1--5" parses successfully to a negative port number. -/
theorem claim_C6 :
    (∀ s : PyStr, parse_location s = none ↔
      pyInt (busField s) = none ∨ ∃ t ∈ portFields s, pyInt t = none) ∧
    parse_location [] = none ∧
    parse_location ("-1".toList) = none ∧
    parse_location ("1-x".toList) = none := by
  refine ⟨?_, by decide, by decide, by decide⟩
  intro s
  rw [parse_location_eq]
  cases hb : pyInt (busField s) with
  | none => simp
  | some v =>
    cases ha : intAll (portFields s) with
    | none =>
      have hx := intAll_eq_none.mp ha
      simp [hx]
    | some vs =>
      have hx : ¬ ∃ t ∈ portFields s, pyInt t = none := fun hh => by
        rw [← intAll_eq_none] at hh
        rw [hh] at ha
        cases ha
      simp [hx]

/-- Counterexample to C6 as stated: "1--5" contains the segment "-5",
which is not a non-negative integer, yet parsing succeeds (with a
negative port number) instead of failing. -/
theorem claim_C6_counterexample :
    parse_location ("1--5".toList) = some [(1 : Int), -5] ∧ ((-5 : Int) < 0) := by
  constructor
  · decide
  · decide

/-! ### Claim C3 -/

theorem mem_P_flags (w lvl : Nat) :
    ('P' ∈ usb_port_status_flags w lvl) ↔
      ((decide (lvl ≤ 2) && (w &&& 256 != 0)) = true ∨
        ((lvl == 3) && (w &&& 512 != 0)) = true) := by
  unfold usb_port_status_flags
  cases h1 : (decide (lvl ≤ 2) && (w &&& 256 != 0)) <;>
  cases h2 : ((lvl == 3) && (w &&& 512 != 0)) <;>
  cases h3 : (w &&& 1 != 0) <;> cases h4 : (w &&& 2 != 0) <;>
  cases h5 : (w &&& 16 != 0) <;> cases h6 : (w &&& 4 != 0) <;>
    simp [h1, h2, h3, h4, h5, h6]

/-- Claim C3 (corrected).  The decode of `0x0103` at usb_level 2 is
`['P','C','E']` as claimed, and the Power flag comes from bit 8 when
usb_level ≤ 2 and from bit 9 when usb_level is 3; but decoding `0x0201`
at usb_level 3 yields `['P','C']` (bit 0 is Connection), not the flag
set {Power} alone. -/
theorem claim_C3 :
    usb_port_status_flags 0x0103 2 = ['P', 'C', 'E'] ∧
    usb_port_status_flags 0x0201 3 = ['P', 'C'] ∧
    (∀ w lvl : Nat, lvl ≤ 2 →
      ('P' ∈ usb_port_status_flags w lvl ↔ w.testBit 8 = true)) ∧
    (∀ w : Nat, 'P' ∈ usb_port_status_flags w 3 ↔ w.testBit 9 = true) := by
  refine ⟨by decide, by decide, ?_, ?_⟩
  · intro w lvl hl
    have ht : w.testBit 8 = (w &&& 256 != 0) := by
      rw [← and_two_pow_ne w 8]
      norm_num
    have h3 : (lvl == 3) = false := by
      rw [beq_eq_false_iff_ne]
      omega
    have h2 : decide (lvl ≤ 2) = true := decide_eq_true hl
    rw [mem_P_flags, ht, h2, h3, Bool.true_and, Bool.false_and]
    simp
  · intro w
    have ht : w.testBit 9 = (w &&& 512 != 0) := by
      rw [← and_two_pow_ne w 9]
      norm_num
    have h3 : ((3 : Nat) == 3) = true := by decide
    have h2 : decide ((3 : Nat) ≤ 2) = false := by decide
    rw [mem_P_flags, ht, h2, h3, Bool.true_and, Bool.false_and]
    simp

/-- Witness for the Power-bit parts of C3's amended claim. -/
theorem claim_C3_witness :
    ((2 : Nat) ≤ 2) ∧ ('P' ∈ usb_port_status_flags 0x0100 2 ↔ (0x0100 : Nat).testBit 8 = true) :=
  ⟨by decide, claim_C3.2.2.1 0x0100 2 (by decide)⟩

/-- Counterexample to C3 as stated: decoding `0x0201` at usb_level 3
yields the flag set {Power, Connection}, not {Power}. -/
theorem claim_C3_counterexample :
    usb_port_status_flags 0x0201 3 = ['P', 'C'] ∧
    usb_port_status_flags 0x0201 3 ≠ ['P'] := by
  constructor
  · decide
  · decide

/-! ### Claim C4 -/

theorem mem_joinSep {sep : Char} {L : List PyStr} {c : Char}
    (h : c ∈ joinSep sep L) : c = sep ∨ ∃ u ∈ L, c ∈ u := by
  induction L with
  | nil => simp [joinSep] at h
  | cons s rest ih =>
    cases rest with
    | nil => exact Or.inr ⟨s, List.mem_cons_self s [], h⟩
    | cons s2 r2 =>
      rw [show joinSep sep (s :: s2 :: r2) = s ++ sep :: joinSep sep (s2 :: r2) from rfl] at h
      rcases List.mem_append.mp h with h | h
      · exact Or.inr ⟨s, List.mem_cons_self _ _, h⟩
      · rcases List.mem_cons.mp h with h | h
        · exact Or.inl h
        · rcases ih h with h | ⟨u, hu, hcu⟩
          · exact Or.inl h
          · exact Or.inr ⟨u, List.mem_cons_of_mem _ hu, hcu⟩

theorem pySplit_joinSep {sep : Char} {L : List PyStr} (hne : L ≠ [])
    (h : ∀ u ∈ L, sep ∉ u) : pySplit sep (joinSep sep L) = L := by
  induction L with
  | nil => exact absurd rfl hne
  | cons s rest ih =>
    cases rest with
    | nil =>
      rw [show joinSep sep [s] = s from rfl, pySplit_no_sep (h s (List.mem_cons_self s []))]
    | cons s2 r2 =>
      rw [show joinSep sep (s :: s2 :: r2) = s ++ sep :: joinSep sep (s2 :: r2) from rfl,
        pySplit_append_sep _ (h s (List.mem_cons_self _ _)),
        ih (by simp) (fun u hu => h u (List.mem_cons_of_mem _ hu))]

theorem joinSep_cons_ne_nil {sep : Char} {s : PyStr} (rest : List PyStr) (hs : s ≠ []) :
    joinSep sep (s :: rest) ≠ [] := by
  cases rest with
  | nil => exact hs
  | cons s2 r2 =>
    rw [show joinSep sep (s :: s2 :: r2) = s ++ sep :: joinSep sep (s2 :: r2) from rfl]
    simp

theorem intRepr_ne_nil (i : Int) : intRepr i ≠ [] := by
  unfold intRepr
  by_cases h : i < 0
  · simp [h]
  · simp [h, natRepr_ne_nil]

theorem pad2_ne_nil (i : Int) : pad2 i ≠ [] := by
  unfold pad2
  by_cases h : (intRepr i).length < 2
  · simp [h]
  · simp [h, intRepr_ne_nil]

theorem intRepr_natCast (n : Nat) : intRepr ((n : Nat) : Int) = natRepr n := by
  unfold intRepr
  rw [if_neg (by omega)]
  norm_num

theorem intAll_pointwise {L : List PyStr} {g : PyStr → Int}
    (h : ∀ u ∈ L, pyInt u = some (g u)) : intAll L = some (L.map g) := by
  induction L with
  | nil => rfl
  | cons s rest ih =>
    unfold intAll
    rw [h s (List.mem_cons_self s rest), ih (fun u hu => h u (List.mem_cons_of_mem s hu))]
    rfl

/-- Claim C4 (confirmed).  For every well-formed location text of the
shape `b-p1.p2...` — digit bus field, nonempty dotted digit port
segments, optionally a `:suffix` tail — parsing succeeds with the
numeric bus and ports, and formatting the parsed Location (the address
computation of `describe_ports`) reproduces the normalized form: the
bus, a `-`, the port numbers zero-padded to two digits and joined with
`.`, no suffix. -/
theorem claim_C4 (busSeg : PyStr) (segs : List PyStr) (sfx : PyStr) (useSfx : Bool)
    (hb : pureDigits busSeg = true) (hne : segs ≠ [])
    (hsegs : ∀ u ∈ segs, pureDigits u = true) :
    parse_location (busSeg ++ '-' :: joinSep '.' segs ++
        (if useSfx then ':' :: sfx else [])) =
      some ((digitsVal busSeg : Int) :: segs.map (fun u => (digitsVal u : Int))) ∧
    format_address ((digitsVal busSeg : Int) :: segs.map (fun u => (digitsVal u : Int))) =
      natRepr (digitsVal busSeg) ++ '-' ::
        joinSep '.' (segs.map (fun u => pad2 (digitsVal u : Int))) := by
  have hbdig : ∀ c ∈ busSeg, isDigitCh c = true := by
    unfold pureDigits at hb
    rw [Bool.and_eq_true, List.all_eq_true] at hb
    exact hb.2
  have hsdig : ∀ u ∈ segs, ∀ c ∈ u, isDigitCh c = true := by
    intro u hu
    have := hsegs u hu
    unfold pureDigits at this
    rw [Bool.and_eq_true, List.all_eq_true] at this
    exact this.2
  -- characters of the core (bus ++ '-' ++ joined ports)
  have hcore_chars : ∀ c ∈ busSeg ++ '-' :: joinSep '.' segs,
      isDigitCh c = true ∨ c = '-' ∨ c = '.' := by
    intro c hc
    rcases List.mem_append.mp hc with h | h
    · exact Or.inl (hbdig c h)
    · rcases List.mem_cons.mp h with h | h
      · exact Or.inr (Or.inl h)
      · rcases mem_joinSep h with h | ⟨u, hu, hcu⟩
        · exact Or.inr (Or.inr h)
        · exact Or.inl (hsdig u hu c hcu)
  have hcore_nospace : ∀ c ∈ busSeg ++ '-' :: joinSep '.' segs, isSpaceChar c = false := by
    intro c hc
    rcases hcore_chars c hc with h | h | h
    · exact (digit_char_props h).2.2.2.2.2
    · rw [h]; rfl
    · rw [h]; rfl
  have hcore_nocolon : ':' ∉ busSeg ++ '-' :: joinSep '.' segs := by
    intro hc
    rcases hcore_chars ':' hc with h | h | h
    · exact absurd rfl (digit_char_props h).2.2.1
    · cases h
    · cases h
  have hbus_nodash : '-' ∉ busSeg := by
    intro hc
    exact absurd rfl (digit_char_props (hbdig '-' hc)).1
  -- the headD of the colon-split of the stripped input is the core
  have hhead : ((pySplit ':' (pyStrip (busSeg ++ '-' :: joinSep '.' segs ++
      (if useSfx then ':' :: sfx else [])))).headD []) = busSeg ++ '-' :: joinSep '.' segs := by
    cases useSfx with
    | false =>
      rw [if_neg (by simp), List.append_nil, pyStrip_noop hcore_nospace,
        pySplit_no_sep hcore_nocolon]
      rfl
    | true =>
      rw [if_pos rfl, pyStrip_append_tail ':' sfx hcore_nospace (by rfl),
        pySplit_append_sep _ hcore_nocolon]
      rfl
  constructor
  · rw [parse_location_eq]
    have hbf : busField (busSeg ++ '-' :: joinSep '.' segs ++
        (if useSfx then ':' :: sfx else [])) = busSeg := by
      unfold busField
      rw [hhead, pyPartition_first _ hbus_nodash]
    have hpf : portFields (busSeg ++ '-' :: joinSep '.' segs ++
        (if useSfx then ':' :: sfx else [])) = segs := by
      unfold portFields
      rw [hhead, pyPartition_first _ hbus_nodash]
      exact pySplit_joinSep hne
        (fun u hu hdot => absurd rfl (digit_char_props (hsdig u hu '.' hdot)).2.1)
    rw [hbf, hpf, pyInt_pure hb,
      intAll_pointwise (g := fun u => (digitsVal u : Int))
        (fun u hu => pyInt_pure (hsegs u hu))]
  · obtain ⟨v, vs, hm⟩ : ∃ v vs, segs.map (fun u => (digitsVal u : Int)) = v :: vs := by
      cases segs with
      | nil => exact absurd rfl hne
      | cons s r => exact ⟨_, _, rfl⟩
    rw [hm]
    show (if joinSep '.' ((v :: vs).map pad2) = []
        then intRepr (digitsVal busSeg : Int)
        else intRepr (digitsVal busSeg : Int) ++ '-' :: joinSep '.' ((v :: vs).map pad2)) = _
    rw [List.map_cons, if_neg (joinSep_cons_ne_nil _ (pad2_ne_nil v)), intRepr_natCast,
      ← List.map_cons, ← hm, List.map_map]
    rfl

/-- Witness for C4: the concrete well-formed input "1-2.10:x1". -/
theorem claim_C4_witness :
    pureDigits ("1".toList) = true ∧
    (["2".toList, "10".toList] ≠ ([] : List PyStr)) ∧
    (∀ u ∈ ["2".toList, "10".toList], pureDigits u = true) ∧
    parse_location ("1".toList ++ '-' :: joinSep '.' ["2".toList, "10".toList] ++
        (if true then ':' :: "x1".toList else [])) =
      some ((digitsVal ("1".toList) : Int) ::
        (["2".toList, "10".toList]).map (fun u => (digitsVal u : Int))) :=
  ⟨by decide, by decide, by decide,
    (claim_C4 ("1".toList) ["2".toList, "10".toList] ("x1".toList) true
      (by decide) (by decide) (by decide)).1⟩

/-! ### Location order and Claim C8 -/

theorem locLt_irrefl : ∀ a : List Int, locLt a a = false := by
  intro a
  induction a with
  | nil => rfl
  | cons x xs ih =>
    show (decide (x < x) || (x == x && locLt xs xs)) = false
    rw [ih]
    simp

theorem locLt_trichotomy (a : List Int) : ∀ b, locLt a b = true ∨ a = b ∨ locLt b a = true := by
  induction a with
  | nil =>
    intro b
    cases b with
    | nil => exact Or.inr (Or.inl rfl)
    | cons y ys => exact Or.inl rfl
  | cons x xs ih =>
    intro b
    cases b with
    | nil => exact Or.inr (Or.inr rfl)
    | cons y ys =>
      rcases lt_trichotomy x y with h | h | h
      · left
        show (decide (x < y) || (x == y && locLt xs ys)) = true
        rw [decide_eq_true h]
        rfl
      · subst h
        rcases ih ys with h2 | h2 | h2
        · left
          show (decide (x < x) || (x == x && locLt xs ys)) = true
          rw [h2]
          simp
        · right; left; rw [h2]
        · right; right
          show (decide (x < x) || (x == x && locLt ys xs)) = true
          rw [h2]
          simp
      · right; right
        show (decide (y < x) || (y == x && locLt ys xs)) = true
        rw [decide_eq_true h]
        rfl

theorem locLt_trans (a : List Int) : ∀ b c, locLt a b = true → locLt b c = true →
    locLt a c = true := by
  induction a with
  | nil =>
    intro b c h1 h2
    cases b with
    | nil => cases h1
    | cons y ys =>
      cases c with
      | nil => cases h2
      | cons z zs => rfl
  | cons x xs ih =>
    intro b c h1 h2
    cases b with
    | nil => cases h1
    | cons y ys =>
      cases c with
      | nil => cases h2
      | cons z zs =>
        show (decide (x < z) || (x == z && locLt xs zs)) = true
        have h1' : x < y ∨ (x = y ∧ locLt xs ys = true) := by
          rw [show locLt (x :: xs) (y :: ys) =
            (decide (x < y) || (x == y && locLt xs ys)) from rfl,
            Bool.or_eq_true, Bool.and_eq_true, decide_eq_true_eq, beq_iff_eq] at h1
          exact h1
        have h2' : y < z ∨ (y = z ∧ locLt ys zs = true) := by
          rw [show locLt (y :: ys) (z :: zs) =
            (decide (y < z) || (y == z && locLt ys zs)) from rfl,
            Bool.or_eq_true, Bool.and_eq_true, decide_eq_true_eq, beq_iff_eq] at h2
          exact h2
        rcases h1' with h1' | ⟨he1, hl1⟩
        · rcases h2' with h2' | ⟨he2, hl2⟩
          · rw [decide_eq_true (lt_trans h1' h2')]
            rfl
          · rw [decide_eq_true (he2 ▸ h1')]
            rfl
        · rcases h2' with h2' | ⟨he2, hl2⟩
          · rw [decide_eq_true (he1 ▸ h2')]
            rfl
          · subst he1
            subst he2
            rw [ih ys zs hl1 hl2]
            simp

theorem locLt_asymm {a b : List Int} (h : locLt a b = true) : locLt b a = false := by
  cases hba : locLt b a
  · rfl
  · have := locLt_trans a b a h hba
    rw [locLt_irrefl] at this
    cases this

theorem locLe_total (a b : List Int) : locLe a b = true ∨ locLe b a = true := by
  rcases locLt_trichotomy a b with h | h | h
  · left
    unfold locLe
    rw [locLt_asymm h]
    rfl
  · left
    unfold locLe
    rw [h, locLt_irrefl]
    rfl
  · right
    unfold locLe
    rw [locLt_asymm h]
    rfl

theorem locLe_trans (a b c : List Int) (h1 : locLe a b = true) (h2 : locLe b c = true) :
    locLe a c = true := by
  unfold locLe at h1 h2 ⊢
  rw [Bool.not_eq_true'] at h1 h2 ⊢
  cases hca : locLt c a
  · rfl
  · exfalso
    rcases locLt_trichotomy a b with h | h | h
    · rw [locLt_trans c a b hca h] at h2
      cases h2
    · subst h
      rw [hca] at h2
      cases h2
    · rw [h] at h1
      cases h1

theorem locLe_antisymm (a b : List Int) (h1 : locLe a b = true) (h2 : locLe b a = true) :
    a = b := by
  unfold locLe at h1 h2
  rw [Bool.not_eq_true'] at h1 h2
  rcases locLt_trichotomy a b with h | h | h
  · rw [h] at h2
    cases h2
  · exact h
  · rw [h] at h1
    cases h1

theorem mem_insLoc {x d : PortRec} {l : List PortRec} (h : d ∈ insLoc x l) :
    d = x ∨ d ∈ l := by
  induction l with
  | nil => simpa [insLoc] using h
  | cons y ys ih =>
    unfold insLoc at h
    by_cases hc : locLt x.location y.location = true
    · rw [if_pos hc] at h
      rcases List.mem_cons.mp h with h | h
      · exact Or.inl h
      · exact Or.inr h
    · rw [if_neg hc] at h
      rcases List.mem_cons.mp h with h | h
      · exact Or.inr (h ▸ List.mem_cons_self y ys)
      · rcases ih h with h | h
        · exact Or.inl h
        · exact Or.inr (List.mem_cons_of_mem y h)

theorem insLoc_sorted {x : PortRec} {l : List PortRec}
    (h : List.Pairwise (fun a b => locLe a.location b.location = true) l) :
    List.Pairwise (fun a b => locLe a.location b.location = true) (insLoc x l) := by
  induction l with
  | nil => simp [insLoc]
  | cons y ys ih =>
    rcases List.pairwise_cons.mp h with ⟨hy, hys⟩
    unfold insLoc
    by_cases hc : locLt x.location y.location = true
    · rw [if_pos hc]
      refine List.pairwise_cons.mpr ⟨?_, h⟩
      intro d hd
      have hxy : locLe x.location y.location = true := by
        unfold locLe
        rw [locLt_asymm hc]
        rfl
      rcases List.mem_cons.mp hd with h' | h'
      · rw [h']
        exact hxy
      · exact locLe_trans _ _ _ hxy (hy d h')
    · rw [if_neg hc]
      refine List.pairwise_cons.mpr ⟨?_, ih hys⟩
      intro d hd
      rcases mem_insLoc hd with h' | h'
      · rw [h']
        unfold locLe
        rw [Bool.not_eq_true] at hc
        rw [hc]
        rfl
      · exact hy d h'

theorem sortPorts_sorted (l : List PortRec) :
    List.Pairwise (fun a b => locLe a.location b.location = true) (sortPorts l) := by
  induction l with
  | nil => exact List.Pairwise.nil
  | cons x xs ih => exact insLoc_sorted ih

/-- Claim C8 (confirmed).  `describe_ports` renders records sorted by
the Location order — `locLe`, the lexicographic order on
`(bus, portPath…)` with shorter prefixes before their children, which
is total, transitive and antisymmetric — and hub records are excluded;
Locations 1, 1-1, 1-1.1, 1-2, 2 (given here scrambled) render in
exactly that order. -/
theorem claim_C8 :
    (∀ ports : List PortRec,
      List.Pairwise (fun a b => locLe a.location b.location = true) (describe_entries ports)) ∧
    (∀ ports : List PortRec, ∀ e ∈ describe_entries ports, e.is_hub = false) ∧
    (∀ a b : List Int, locLe a b = true ∨ locLe b a = true) ∧
    (∀ a b c : List Int, locLe a b = true → locLe b c = true → locLe a c = true) ∧
    (∀ a b : List Int, locLe a b = true → locLe b a = true → a = b) ∧
    describe_ports
      [ { location := [2] }, { location := [1, 1, 1] }, { location := [1] },
        { location := [1, 2] }, { location := [1, 1] } ] =
      [ "1             []     ".toList, "1-01          []     ".toList,
        "1-01.01       []     ".toList, "1-02          []     ".toList,
        "2             []     ".toList ] := by
  refine ⟨?_, ?_, locLe_total, locLe_trans, locLe_antisymm, by decide⟩
  · intro ports
    exact List.Pairwise.sublist (List.filter_sublist _) (sortPorts_sorted ports)
  · intro ports e he
    have := List.mem_filter.mp he
    simpa using this.2

/-- Witness for C8's order axioms at concrete locations. -/
theorem claim_C8_witness :
    (locLe [(1 : Int)] [1, 2] = true ∧ locLe [(1 : Int), 2] [2] = true) ∧
    locLe [(1 : Int)] [2] = true :=
  ⟨⟨by decide, by decide⟩, claim_C8.2.2.2.1 [1] [1, 2] [2] (by decide) (by decide)⟩

/-! ### Trace lemmas: hub expansion only opens control nodes -/

theorem hub_step_evs (hw : Hw) (st : List PortRec) (i : Nat) :
    ∀ e ∈ (hub_step hw st i).1, ∃ dv, e = Ev.openCtl dv := by
  intro e he
  unfold hub_step at he
  rcases h : st[i]? with _ | d
  · simp only [h] at he
    exact absurd (show e ∈ ([] : List Ev) from he) (List.not_mem_nil e)
  · simp only [h] at he
    by_cases hh : d.is_hub = true
    · simp only [if_pos hh] at he
      rcases hd : d.dev with _ | dv
      · simp only [hd] at he
        exact absurd (show e ∈ ([] : List Ev) from he) (List.not_mem_nil e)
      · simp only [hd] at he
        by_cases ho : hw.openOk dv = true
        · simp only [if_pos ho] at he
          rcases hn : hw.numports dv d.usb_level with _ | n
          · simp only [hn] at he
            exact ⟨dv, List.mem_singleton.mp (show e ∈ [Ev.openCtl dv] from he)⟩
          · simp only [hn] at he
            exact ⟨dv, List.mem_singleton.mp (show e ∈ [Ev.openCtl dv] from he)⟩
        · simp only [if_neg ho] at he
          exact absurd (show e ∈ ([] : List Ev) from he) (List.not_mem_nil e)
    · simp only [if_neg hh] at he
      exact absurd (show e ∈ ([] : List Ev) from he) (List.not_mem_nil e)

theorem run_hubs_evs (hw : Hw) : ∀ (I : List Nat) (st : List PortRec),
    ∀ e ∈ (run_hubs hw I st).1, ∃ dv, e = Ev.openCtl dv := by
  intro I
  induction I with
  | nil =>
    intro st e he
    simp [run_hubs] at he
  | cons i rest ih =>
    intro st e he
    unfold run_hubs at he
    rcases hr : (hub_step hw st i).2 with er | st'
    · simp only [hr] at he
      exact hub_step_evs hw st i e he
    · simp only [hr] at he
      have he' : e ∈ (hub_step hw st i).1 ++ (run_hubs hw rest st').1 := he
      rcases List.mem_append.mp he' with h | h
      · exact hub_step_evs hw st i e h
      · exact ih _ e h

theorem list_usbports_evs (hw : Hw) (env : Env) :
    ∀ e ∈ (list_usbports hw env).1, ∃ dv, e = Ev.openCtl dv := by
  intro e he
  unfold list_usbports at he
  rcases hr : (update_hubs hw (env.devices.map enum_record)).2 with er | p1
  · simp only [hr] at he
    exact run_hubs_evs hw _ _ e he
  · simp only [hr] at he
    rcases hc : update_comports env.comports p1 with _ | p2
    · simp only [hc] at he
      exact run_hubs_evs hw _ _ e he
    · simp only [hc] at he
      exact run_hubs_evs hw _ _ e he

/-! ### Claim C2 -/

deriving instance DecidableEq for Except

/-- Environment with a single root hub on bus 1 (used by the C2/C9
scenarios): the topology rebuild must open its control node. -/
def cexEnvHub : Env :=
  { devices := [ { devId := 0, bus := 1, bcdUSB := 0x0200, bDeviceClass := 9 } ] }

/-- Hardware for the single-hub scenarios: every open succeeds and the
hub reports one powered port. -/
def cexHwHub : Hw :=
  { openOk := fun _ => true, numports := fun _ _ => some 1,
    portStatusWord := fun _ _ => some 0x0100,
    featureOk := fun _ => true, resetOk := fun _ => true }

/-- Claim C2 (corrected).  When the topology build succeeds,
`set_feature` on a malformed location raises the parse `ValueError` and
on an unresolvable Location raises the port-not-found `ValueError`, in
both cases issuing no feature ioctl and opening no control node of its
own — the trace is exactly the build's trace, which consists only of
control-node opens.  The error is therefore NOT raised before any
hardware access: the preceding topology rebuild opens every hub's
control node first. -/
theorem claim_C2 (hw : Hw) (env : Env) (txt : PyStr) (feature : Nat) (value : Bool)
    (ports : List PortRec) (evs : List Ev)
    (hb : list_usbports hw env = (evs, Except.ok ports)) :
    (parse_location txt = none →
      set_feature hw env txt feature value = (evs, Except.error Err.parseError)) ∧
    (∀ loc, parse_location txt = some loc → find_loc ports loc = none →
      set_feature hw env txt feature value = (evs, Except.error Err.portNotFound)) ∧
    (∀ e ∈ evs, ∃ dv, e = Ev.openCtl dv) := by
  refine ⟨?_, ?_, ?_⟩
  · intro hp
    simp only [set_feature, hb, hp]
  · intro loc hp hf
    simp only [set_feature, hb, hp, hf]
  · intro e he
    have hm : e ∈ (list_usbports hw env).1 := by
      rw [hb]
      exact he
    exact list_usbports_evs hw env e hm

/-- Witness for C2 in the single-hub scenario with the malformed
location "zz". -/
theorem claim_C2_witness :
    set_feature cexHwHub cexEnvHub ("zz".toList) 8 true =
      ([Ev.openCtl 0], Except.error Err.parseError) :=
  (claim_C2 cexHwHub cexEnvHub ("zz".toList) 8 true
    [ { dev := some 0, location := [1], usb_level := 2, is_hub := true,
        numports := some 1, vidpid := some (0, 0) },
      { location := [1, 1], port_status := some ['P'] } ]
    [Ev.openCtl 0] (by decide)).1 (by decide)

/-- Counterexample to C2 as stated: in the single-hub system the
failing `set_feature("zz")` call's trace contains the hub's
control-node open — the topology rebuild opened a control channel
before the LocationError was raised, so the error does not precede all
hardware access. -/
theorem claim_C2_counterexample :
    set_feature cexHwHub cexEnvHub ("zz".toList) 8 true =
      ([Ev.openCtl 0], Except.error Err.parseError) ∧
    Ev.openCtl 0 ∈ (set_feature cexHwHub cexEnvHub ("zz".toList) 8 true).1 := by
  constructor
  · decide
  · decide

/-! ### Claims C9 and C10 -/

/-- The port list a successful build returns (empty if the build
raised); a convenience projection for stating facts about concrete
scenarios. -/
def builtPorts (hw : Hw) (env : Env) : List PortRec :=
  match (list_usbports hw env).2 with
  | Except.ok ps => ps
  | Except.error _ => []

/-- Claim C9 (corrected).  `soft_reset` never inspects the parent hub:
it checks only the target record, and when the target has no bound
device it raises the device-not-enumerated `ValueError` ("usb device
not enumerated or plugged in"), issuing no reset ioctl; the
hub-never-enumerated message the claim describes belongs to
`set_feature`, which raises it when the parent record exists without a
bound device, issuing no feature ioctl. -/
theorem claim_C9 (hw : Hw) (env : Env) (txt : PyStr)
    (ports : List PortRec) (evs : List Ev) (loc : List Int)
    (hb : list_usbports hw env = (evs, Except.ok ports))
    (hp : parse_location txt = some loc) :
    (∀ j, find_loc ports loc = some j → (ports.getD j {}).dev = none →
      soft_reset hw env txt = (evs, Except.error Err.deviceNotEnumerated) ∧
      (∀ e ∈ evs, ∀ dv, e ≠ Ev.ioctlReset dv)) ∧
    (∀ feature value j jp, find_loc ports loc = some j →
      find_loc ports loc.dropLast = some jp → (ports.getD jp {}).dev = none →
      set_feature hw env txt feature value = (evs, Except.error Err.hubNeverEnumerated) ∧
      (∀ e ∈ evs, ∀ dv p f2 v2, e ≠ Ev.ioctlFeature dv p f2 v2)) := by
  constructor
  · intro j hf hg
    constructor
    · simp only [soft_reset, hb, hp, hf, hg]
    · intro e he dv
      rcases list_usbports_evs hw env e (by rw [hb]; exact he) with ⟨dv2, hh⟩
      rw [hh]
      simp
  · intro feature value j jp hf hfp hg
    constructor
    · simp only [set_feature, hb, hp, hf, hfp, hg]
    · intro e he dv p f2 v2
      rcases list_usbports_evs hw env e (by rw [hb]; exact he) with ⟨dv2, hh⟩
      rw [hh]
      simp

/-- Witness for C9: in the single-hub system, `soft_reset` on the ghost
port 1-1 fails with the device-not-enumerated error and no reset
ioctl. -/
theorem claim_C9_witness :
    soft_reset cexHwHub cexEnvHub ("1-1".toList) =
      ([Ev.openCtl 0], Except.error Err.deviceNotEnumerated) :=
  ((claim_C9 cexHwHub cexEnvHub ("1-1".toList)
    [ { dev := some 0, location := [1], usb_level := 2, is_hub := true,
        numports := some 1, vidpid := some (0, 0) },
      { location := [1, 1], port_status := some ['P'] } ]
    [Ev.openCtl 0] [1, 1] (by decide) (by decide)).1 1 (by decide) (by decide)).1

/-- Environment with a hub on bus 1 (two ports, both unoccupied at the
hub's level) and a device enumerated at 1-2.1 whose parent location 1-2
is only a ghost entry. -/
def cexEnvDeep : Env :=
  { devices :=
      [ { devId := 0, bus := 1, bcdUSB := 0x0200, bDeviceClass := 9 },
        { devId := 1, bus := 1, port_numbers := [2, 1], bcdUSB := 0x0200 } ] }

/-- Hardware for `cexEnvDeep`: only the hub answers the descriptor
read. -/
def cexHwDeep : Hw :=
  { openOk := fun _ => true,
    numports := fun dv _ => if dv = 0 then some 2 else none,
    portStatusWord := fun _ _ => some 0x0101,
    featureOk := fun _ => true, resetOk := fun _ => true }

/-- Counterexample to C9 as stated: the parent location 1-2 of the
target 1-2.1 is present only as a ghost (no bound device), yet
`soft_reset` on 1-2.1 succeeds and issues the bus-reset ioctl on the
target itself — it raises no HardwareError about the hub at all. -/
theorem claim_C9_counterexample :
    devAt (builtPorts cexHwDeep cexEnvDeep) [1, 2] = none ∧
    (find_loc (builtPorts cexHwDeep cexEnvDeep) [1, 2]).isSome = true ∧
    devAt (builtPorts cexHwDeep cexEnvDeep) [1, 2, 1] = some 1 ∧
    soft_reset cexHwDeep cexEnvDeep ("1-2.1".toList) =
      ([Ev.openCtl 0, Ev.openCtl 1, Ev.ioctlReset 1], Except.ok ()) := by
  refine ⟨by decide, by decide, by decide, by decide⟩

/-! ### Claim C10 -/

/-- Claim C10 (confirmed).  In `set_feature`, when the target Location
is found but the parent lookup (target with the last segment dropped)
finds nothing, the membership test `'dev' not in d` runs on `None` and
raises an unguarded `TypeError`; the hub-never-enumerated `ValueError`
is raised exactly when the parent record exists without a bound
device (a ghost). -/
theorem claim_C10 (hw : Hw) (env : Env) (txt : PyStr) (feature : Nat) (value : Bool)
    (ports : List PortRec) (evs : List Ev)
    (hb : list_usbports hw env = (evs, Except.ok ports)) :
    (∀ loc j, parse_location txt = some loc → find_loc ports loc = some j →
      find_loc ports loc.dropLast = none →
      set_feature hw env txt feature value = (evs, Except.error Err.typeError)) ∧
    (∀ loc j jp, parse_location txt = some loc → find_loc ports loc = some j →
      find_loc ports loc.dropLast = some jp → (ports.getD jp {}).dev = none →
      set_feature hw env txt feature value = (evs, Except.error Err.hubNeverEnumerated)) ∧
    ((set_feature hw env txt feature value).2 = Except.error Err.hubNeverEnumerated →
      ∃ loc j jp, parse_location txt = some loc ∧ find_loc ports loc = some j ∧
        find_loc ports loc.dropLast = some jp ∧ (ports.getD jp {}).dev = none) := by
  refine ⟨?_, ?_, ?_⟩
  · intro loc j hp hf hfp
    simp only [set_feature, hb, hp, hf, hfp]
  · intro loc j jp hp hf hfp hd
    simp only [set_feature, hb, hp, hf, hfp, hd]
  · intro hr
    simp only [set_feature, hb] at hr
    rcases hp : parse_location txt with _ | loc
    · simp only [hp] at hr
      exact absurd (show Except.error Err.parseError =
        (Except.error Err.hubNeverEnumerated : Except Err Unit) from hr) (by decide)
    · simp only [hp] at hr
      rcases hf : find_loc ports loc with _ | j
      · simp only [hf] at hr
        exact absurd (show Except.error Err.portNotFound =
          (Except.error Err.hubNeverEnumerated : Except Err Unit) from hr) (by decide)
      · simp only [hf] at hr
        rcases hfp : find_loc ports loc.dropLast with _ | jp
        · simp only [hfp] at hr
          exact absurd (show Except.error Err.typeError =
            (Except.error Err.hubNeverEnumerated : Except Err Unit) from hr) (by decide)
        · simp only [hfp] at hr
          rcases hd : (ports.getD jp {}).dev with _ | dv
          · exact ⟨loc, j, jp, rfl, hf, hfp, hd⟩
          · simp only [hd] at hr
            by_cases ho : hw.openOk dv = true
            · simp only [if_pos ho] at hr
              by_cases hfo : hw.featureOk dv = true
              · simp only [if_pos hfo] at hr
                exact absurd (show Except.ok () =
                  (Except.error Err.hubNeverEnumerated : Except Err Unit) from hr) (by decide)
              · simp only [if_neg hfo] at hr
                exact absurd (show Except.error Err.osError =
                  (Except.error Err.hubNeverEnumerated : Except Err Unit) from hr) (by decide)
            · simp only [if_neg ho] at hr
              exact absurd (show Except.error Err.osError =
                (Except.error Err.hubNeverEnumerated : Except Err Unit) from hr) (by decide)

/-- Environment with a lone device at 1-5 and no root hub entry, so the
parent location 1 is absent from the topology. -/
def cexEnvOrphan : Env :=
  { devices := [ { devId := 0, bus := 1, port_numbers := [5], bcdUSB := 0x0200 } ] }

/-- Hardware that answers nothing (no hubs are expanded anyway). -/
def cexHwNull : Hw :=
  { openOk := fun _ => true, numports := fun _ _ => none,
    portStatusWord := fun _ _ => none,
    featureOk := fun _ => true, resetOk := fun _ => true }

/-- Witness for C10: the target 1-5 is in the topology but its parent
location 1 is not, and `set_feature` raises the unguarded TypeError. -/
theorem claim_C10_witness :
    set_feature cexHwNull cexEnvOrphan ("1-5".toList) 8 true =
      ([], Except.error Err.typeError) :=
  (claim_C10 cexHwNull cexEnvOrphan ("1-5".toList) 8 true
    [ { dev := some 0, location := [1, 5], usb_level := 2, vidpid := some (0, 0) } ] []
    (by decide)).1 [1, 5] 0 (by decide) (by decide) (by decide)

/-! ### Claim C1 -/

/-- Two root hubs on buses 1 and 2; the descriptor read of hub 0
fails (is swallowed), hub 1 expands with one port. -/
def cexHwIso : Hw :=
  { openOk := fun _ => true,
    numports := fun dv _ => if dv = 1 then some 1 else none,
    portStatusWord := fun _ _ => some 0x0101,
    featureOk := fun _ => true, resetOk := fun _ => true }

/-- The enumerated list for the two-hub scenarios. -/
def cexPortsIso : List PortRec :=
  [ { dev := some 0, location := [1], usb_level := 2, is_hub := true },
    { dev := some 1, location := [2], usb_level := 2, is_hub := true } ]

/-- Same two hubs, but opening hub 0's control node raises (e.g.
permission denied). -/
def cexHwOpenFail : Hw :=
  { openOk := fun dv => dv != 0,
    numports := fun _ _ => some 1,
    portStatusWord := fun _ _ => some 0x0101,
    featureOk := fun _ => true, resetOk := fun _ => true }

/-- Same two hubs, but the port-status ioctl on hub 0 raises. -/
def cexHwStatusFail : Hw :=
  { openOk := fun _ => true,
    numports := fun _ _ => some 1,
    portStatusWord := fun _ _ => none,
    featureOk := fun _ => true, resetOk := fun _ => true }

/-- Claim C1 (corrected).  Isolation holds only for the hub-descriptor
read: when `usb_hub_numports` fails (swallowed, `None`), the hub's step
is an exact no-op — the hub's own record is kept, no children are
added, and the rest of the build proceeds on the unchanged state — as
the two-hub scenario shows end to end; but failures opening a hub's
control node or reading a port status are NOT isolated (they propagate
and abort the whole build; see the counterexample). -/
theorem claim_C1 :
    (∀ (hw : Hw) (st : List PortRec) (i : Nat) (d : PortRec) (dv : Nat),
      st[i]? = some d → d.is_hub = true → d.dev = some dv →
      hw.openOk dv = true → hw.numports dv d.usb_level = none →
      hub_step hw st i = ([Ev.openCtl dv], Except.ok st)) ∧
    update_hubs cexHwIso cexPortsIso =
      ([Ev.openCtl 0, Ev.openCtl 1], Except.ok
        [ { dev := some 0, location := [1], usb_level := 2, is_hub := true },
          { dev := some 1, location := [2], usb_level := 2, is_hub := true,
            numports := some 1 },
          { location := [2, 1], port_status := some ['P', 'C'] } ]) := by
  constructor
  · intro hw st i d dv h hh hd ho hn
    simp [hub_step, h, hh, hd, ho, hn]
  · decide

/-- Witness for C1's no-op lemma: hub 0 of the two-hub scenario. -/
theorem claim_C1_witness :
    hub_step cexHwIso cexPortsIso 0 = ([Ev.openCtl 0], Except.ok cexPortsIso) :=
  claim_C1.1 cexHwIso cexPortsIso 0
    { dev := some 0, location := [1], usb_level := 2, is_hub := true } 0
    (by decide) (by decide) (by decide) (by decide) (by decide)

/-- Counterexample to C1 as stated: a failure opening hub 0's control
node (or reading one of its port statuses) aborts the entire topology
build — hub 1 is never expanded and no port list is produced at all,
so the failure is not isolated to hub 0. -/
theorem claim_C1_counterexample :
    update_hubs cexHwOpenFail cexPortsIso = ([], Except.error Err.osError) ∧
    update_hubs cexHwStatusFail cexPortsIso = ([Ev.openCtl 0], Except.error Err.osError) := by
  refine ⟨by decide, by decide⟩

/-! ### Index and lookup lemmas for the topology state -/

theorem updateAt_length (j : Nat) (f : PortRec → PortRec) :
    ∀ st : List PortRec, (updateAt j f st).length = st.length := by
  intro st
  induction st generalizing j with
  | nil => simp [updateAt]
  | cons e rest ih =>
    cases j with
    | zero => simp [updateAt]
    | succ j' => simp [updateAt, ih j']

theorem getElem?_updateAt (f : PortRec → PortRec) :
    ∀ (st : List PortRec) (j k : Nat),
      (updateAt j f st)[k]? = if k = j then (st[k]?).map f else st[k]? := by
  intro st
  induction st with
  | nil =>
    intro j k
    simp [updateAt]
  | cons e rest ih =>
    intro j k
    cases j with
    | zero =>
      cases k with
      | zero => simp [updateAt]
      | succ m => simp [updateAt]
    | succ j' =>
      cases k with
      | zero => simp [updateAt]
      | succ m =>
        have h1 : (updateAt (j' + 1) f (e :: rest))[m + 1]? = (updateAt j' f rest)[m]? := by
          simp [updateAt]
        rw [h1, ih j' m]
        by_cases hm : m = j'
        · simp [hm]
        · have h2 : ¬ (m + 1 = j' + 1) := fun h => hm (Nat.succ_injective h)
          simp [hm, h2]

theorem locsOf_updateAt {f : PortRec → PortRec} (hf : ∀ e, (f e).location = e.location)
    (j : Nat) : ∀ st : List PortRec, locsOf (updateAt j f st) = locsOf st := by
  intro st
  induction st generalizing j with
  | nil => simp [updateAt]
  | cons e rest ih =>
    cases j with
    | zero => simp [updateAt, locsOf, hf]
    | succ j' =>
      have h1 : updateAt (j' + 1) f (e :: rest) = e :: updateAt j' f rest := by
        simp [updateAt]
      rw [h1]
      show e.location :: locsOf (updateAt j' f rest) = e.location :: locsOf rest
      rw [ih j']

theorem locsOf_append (st : List PortRec) (g : PortRec) :
    locsOf (st ++ [g]) = locsOf st ++ [g.location] := by
  simp [locsOf]

theorem mem_locsOf {st : List PortRec} {l : List Int} :
    l ∈ locsOf st ↔ ∃ e ∈ st, e.location = l := by
  simp [locsOf]

theorem find_loc_none {st : List PortRec} {l : List Int} :
    find_loc st l = none ↔ ∀ e ∈ st, e.location ≠ l := by
  induction st with
  | nil => simp [find_loc]
  | cons e rest ih =>
    unfold find_loc
    by_cases he : e.location = l
    · simp [he]
    · simp only [if_neg he]
      constructor
      · intro h
        cases hr : find_loc rest l with
        | none =>
          intro e2 he2
          rcases List.mem_cons.mp he2 with h2 | h2
          · rw [h2]
            exact he
          · exact ih.mp hr e2 h2
        | some j => rw [hr] at h; cases h
      · intro h
        have : find_loc rest l = none :=
          ih.mpr (fun e2 he2 => h e2 (List.mem_cons_of_mem e he2))
        rw [this]
        rfl

theorem find_loc_some : ∀ (st : List PortRec) (l : List Int) (j : Nat),
    find_loc st l = some j → j < st.length ∧ ∃ e, st[j]? = some e ∧ e.location = l := by
  intro st
  induction st with
  | nil => intro l j h; cases h
  | cons e rest ih =>
    intro l j h
    unfold find_loc at h
    by_cases he : e.location = l
    · rw [if_pos he] at h
      cases h
      exact ⟨Nat.succ_pos _, e, by simp, he⟩
    · rw [if_neg he] at h
      cases hr : find_loc rest l with
      | none => rw [hr] at h; cases h
      | some j' =>
        rw [hr] at h
        cases h
        rcases ih l j' hr with ⟨hlt, e', he', hl'⟩
        exact ⟨Nat.succ_lt_succ hlt, e', by simpa using he', hl'⟩

theorem find_loc_ext : ∀ (st st' : List PortRec) (l : List Int),
    st.length ≤ st'.length →
    (∀ j, j < st.length → (st[j]?).map (fun e => e.location) =
      (st'[j]?).map (fun e => e.location)) →
    (∀ j, st.length ≤ j → ∀ e', st'[j]? = some e' → e'.location ≠ l) →
    find_loc st' l = find_loc st l := by
  intro st
  induction st with
  | nil =>
    intro st' l _ _ hge
    rw [show find_loc [] l = none from rfl]
    rw [find_loc_none]
    intro e he
    rcases List.getElem_of_mem he with ⟨j, hj, hje⟩
    exact hge j (Nat.zero_le j) e (by rw [List.getElem?_eq_getElem hj, hje])
  | cons e rest ih =>
    intro st' l hlen heq hge
    cases st' with
    | nil => cases hlen
    | cons e' rest' =>
      have h0 := heq 0 (Nat.succ_pos _)
      simp only [List.getElem?_cons_zero, Option.map_some] at h0
      have hloc : e.location = e'.location := by
        injection h0
      unfold find_loc
      rw [← hloc]
      by_cases he : e.location = l
      · simp [he]
      · simp only [if_neg he]
        rw [ih rest' l (Nat.le_of_succ_le_succ hlen)
          (fun j hj => by
            have := heq (j + 1) (Nat.succ_lt_succ hj)
            simpa using this)
          (fun j hj e2 he2 => hge (j + 1) (Nat.succ_le_succ hj) e2 (by simpa using he2))]

/-! ### Child locations, devAt, and uniqueness helpers -/

theorem childOf_append (loc m : List Int) (k : Int) :
    childOf loc (m ++ [k]) = (m == loc) := by
  unfold childOf
  simp

theorem childOf_self_append (loc : List Int) (k : Int) :
    childOf loc (loc ++ [k]) = true := by
  rw [childOf_append]
  simp

theorem childOf_ne {loc m : List Int} (k : Int) (h : m ≠ loc) :
    childOf loc (m ++ [k]) = false := by
  rw [childOf_append]
  simp [h]

theorem childOf_exists {loc l : List Int} (h : childOf loc l = true) :
    ∃ k, l = loc ++ [k] := by
  unfold childOf at h
  rw [Bool.and_eq_true] at h
  obtain ⟨h1, h2⟩ := h
  have hne : l ≠ [] := by simpa using h1
  refine ⟨l.getLast hne, ?_⟩
  have hd : l.dropLast = loc := by simpa using h2
  rw [← hd]
  exact (List.dropLast_concat_getLast hne).symm

theorem append_singleton_inj {m loc : List Int} {a b : Int} (h : m ++ [a] = loc ++ [b]) :
    m = loc ∧ a = b := by
  rcases List.append_inj' h rfl with ⟨h1, h2⟩
  exact ⟨h1, by injection h2⟩

theorem find_loc_congr_locs : ∀ (st st' : List PortRec), locsOf st = locsOf st' →
    ∀ l, find_loc st l = find_loc st' l := by
  intro st
  induction st with
  | nil =>
    intro st' hl l
    cases st' with
    | nil => rfl
    | cons e' r' => simp [locsOf] at hl
  | cons e r ih =>
    intro st' hl l
    cases st' with
    | nil => simp [locsOf] at hl
    | cons e' r' =>
      simp only [locsOf, List.map_cons, List.cons.injEq] at hl
      obtain ⟨h0, h1⟩ := hl
      unfold find_loc
      rw [h0, ih r' h1 l]

theorem find_loc_append_ne {g : PortRec} {l : List Int} (h : g.location ≠ l) :
    ∀ st : List PortRec, find_loc (st ++ [g]) l = find_loc st l := by
  intro st
  induction st with
  | nil => simp [find_loc, h]
  | cons e r ih =>
    unfold find_loc
    rw [List.cons_append]
    show (if e.location = l then some 0 else (find_loc (r ++ [g]) l).map (fun j => j + 1)) = _
    rw [ih]

theorem devAt_updateAt {f : PortRec → PortRec}
    (hloc : ∀ e, (f e).location = e.location) (hdev : ∀ e, (f e).dev = e.dev)
    (j : Nat) (st : List PortRec) (l : List Int) :
    devAt (updateAt j f st) l = devAt st l := by
  unfold devAt
  rw [find_loc_congr_locs (updateAt j f st) st (locsOf_updateAt hloc j st) l]
  cases hf : find_loc st l with
  | none => rfl
  | some j' =>
    show ((updateAt j f st).getD j' {}).dev = (st.getD j' {}).dev
    rw [List.getD_eq_getElem?_getD, List.getD_eq_getElem?_getD, getElem?_updateAt]
    by_cases hjj : j' = j
    · subst hjj
      cases hx : st[j']? with
      | none => simp
      | some e => simp [hdev]
    · simp [hjj]

theorem devAt_append_ne {g : PortRec} {l : List Int} (st : List PortRec)
    (h : g.location ≠ l) : devAt (st ++ [g]) l = devAt st l := by
  unfold devAt
  rw [find_loc_append_ne h st]
  cases hf : find_loc st l with
  | none => rfl
  | some j =>
    rcases find_loc_some st l j hf with ⟨hj, e, he, _⟩
    show ((st ++ [g]).getD j {}).dev = (st.getD j {}).dev
    rw [List.getD_eq_getElem?_getD, List.getD_eq_getElem?_getD,
      List.getElem?_append_left hj]

theorem devAt_none_of_find_none {st : List PortRec} {l : List Int}
    (h : find_loc st l = none) : devAt st l = none := by
  unfold devAt
  rw [h]

theorem nodup_loc_ne {st : List PortRec} (h : (locsOf st).Nodup) {j1 j2 : Nat}
    {e1 e2 : PortRec} (hne : j1 ≠ j2) (h1 : st[j1]? = some e1) (h2 : st[j2]? = some e2) :
    e1.location ≠ e2.location := by
  intro heq
  apply hne
  have hj1 : j1 < st.length := (List.getElem?_eq_some_iff.mp h1).1
  refine @List.getElem?_inj _ _ _ (locsOf st) ?_ h ?_
  · simpa [locsOf] using hj1
  · show (locsOf st)[j1]? = (locsOf st)[j2]?
    unfold locsOf
    rw [List.getElem?_map, List.getElem?_map, h1, h2]
    simp [heq]

theorem length_filter_children {out : List PortRec} {loc : List Int} {n : Nat}
    (hnodup : (locsOf out).Nodup)
    (honly : ∀ e ∈ out, childOf loc e.location = true →
      ∃ k : Int, 1 ≤ k ∧ k ≤ (n : Int) ∧ e.location = loc ++ [k])
    (hall : ∀ k : Int, 1 ≤ k → k ≤ (n : Int) → ∃ e ∈ out, e.location = loc ++ [k]) :
    (out.filter (fun e => childOf loc e.location)).length = n := by
  have hM : (out.filter (fun e => childOf loc e.location)).map (fun e => e.location) =
      (locsOf out).filter (childOf loc) := by
    unfold locsOf
    rw [List.filter_map]
    rfl
  have hMnodup : ((locsOf out).filter (childOf loc)).Nodup :=
    List.Nodup.sublist (List.filter_sublist _) hnodup
  have hRinj : Function.Injective (fun k : Nat => loc ++ [(k : Int)]) := by
    intro a b hab
    have := (append_singleton_inj hab).2
    exact_mod_cast this
  have hRnodup : ((List.range' 1 n).map (fun k : Nat => loc ++ [(k : Int)])).Nodup :=
    (List.nodup_range' 1 n).map hRinj
  have hmem : ∀ x, x ∈ (locsOf out).filter (childOf loc) ↔
      x ∈ (List.range' 1 n).map (fun k : Nat => loc ++ [(k : Int)]) := by
    intro x
    constructor
    · intro hx
      rcases List.mem_filter.mp hx with ⟨hx1, hx2⟩
      rcases mem_locsOf.mp hx1 with ⟨e, hee, hxe⟩
      rcases honly e hee (by rw [hxe]; exact hx2) with ⟨k, hk1, hk2, hk3⟩
      refine List.mem_map.mpr ⟨k.toNat, ?_, ?_⟩
      · rw [List.mem_range'_1]
        omega
      · rw [← hxe, hk3]
        congr 1
        simp
        omega
    · intro hx
      rcases List.mem_map.mp hx with ⟨k, hk, hxk⟩
      rw [List.mem_range'_1] at hk
      rcases hall (k : Int) (by omega) (by omega) with ⟨e, hee, hel⟩
      refine List.mem_filter.mpr ⟨mem_locsOf.mpr ⟨e, hee, by rw [hel, hxk]⟩, ?_⟩
      rw [← hxk]
      exact childOf_self_append loc (k : Int)
  have hcard : ((locsOf out).filter (childOf loc)).toFinset =
      ((List.range' 1 n).map (fun k : Nat => loc ++ [(k : Int)])).toFinset := by
    apply Finset.ext
    intro x
    rw [List.mem_toFinset, List.mem_toFinset]
    exact hmem x
  have h1 : (out.filter (fun e => childOf loc e.location)).length =
      ((locsOf out).filter (childOf loc)).length := by
    rw [← hM, List.length_map]
  rw [h1, ← List.toFinset_card_of_nodup hMnodup, hcard,
    List.toFinset_card_of_nodup hRnodup, List.length_map, List.length_range']

/-! ### State-evolution relations for hub expansion -/

/-- Shape of a record preserved by hub expansion: location, bound
device, hub flag and usb level never change; only `numports` and
`port_status` may. -/
def sameShape (e e' : PortRec) : Prop :=
  e'.location = e.location ∧ e'.dev = e.dev ∧ e'.is_hub = e.is_hub ∧ e'.usb_level = e.usb_level

/-- Old records keep their shape. -/
def shapeExt (st st' : List PortRec) : Prop :=
  st.length ≤ st'.length ∧
  ∀ j, j < st.length → ∃ e e', st[j]? = some e ∧ st'[j]? = some e' ∧ sameShape e e'

/-- Evolution that leaves every child location of `loc` untouched: old
records keep shape and, on a child location of `loc`, their status; new
records are non-hub ghosts away from `loc`'s children. -/
def PresCh (loc : List Int) (st st' : List PortRec) : Prop :=
  st.length ≤ st'.length ∧
  (∀ j, j < st.length → ∃ e e', st[j]? = some e ∧ st'[j]? = some e' ∧ sameShape e e' ∧
    (childOf loc e.location = true → e'.port_status = e.port_status)) ∧
  (∀ j, st.length ≤ j → ∀ e', st'[j]? = some e' →
    e'.dev = none ∧ e'.is_hub = false ∧ childOf loc e'.location = false)

/-- Evolution that preserves the status of the record at one fixed
location `l`. -/
def presLoc (l : List Int) (st st' : List PortRec) : Prop :=
  st.length ≤ st'.length ∧
  ∀ j, j < st.length → ∃ e e', st[j]? = some e ∧ st'[j]? = some e' ∧ sameShape e e' ∧
    (e.location = l → e'.port_status = e.port_status)

theorem sameShape_refl (e : PortRec) : sameShape e e := ⟨rfl, rfl, rfl, rfl⟩

theorem sameShape_trans {e1 e2 e3 : PortRec} (h1 : sameShape e1 e2) (h2 : sameShape e2 e3) :
    sameShape e1 e3 :=
  ⟨h2.1.trans h1.1, h2.2.1.trans h1.2.1, h2.2.2.1.trans h1.2.2.1, h2.2.2.2.trans h1.2.2.2⟩

theorem presCh_refl (loc : List Int) (st : List PortRec) : PresCh loc st st := by
  refine ⟨Nat.le_refl _, ?_, ?_⟩
  · intro j hj
    have h := List.getElem?_eq_some_iff.mpr ⟨hj, rfl⟩
    exact ⟨st[j], st[j], h, h, sameShape_refl _, fun _ => rfl⟩
  · intro j hj e' he'
    have : j < st.length := (List.getElem?_eq_some_iff.mp he').1
    omega

theorem presCh_trans {loc : List Int} {st1 st2 st3 : List PortRec}
    (h1 : PresCh loc st1 st2) (h2 : PresCh loc st2 st3) : PresCh loc st1 st3 := by
  obtain ⟨hl1, hm1, ha1⟩ := h1
  obtain ⟨hl2, hm2, ha2⟩ := h2
  refine ⟨Nat.le_trans hl1 hl2, ?_, ?_⟩
  · intro j hj
    rcases hm1 j hj with ⟨e, e2, he, he2, hs12, hp12⟩
    rcases hm2 j (Nat.lt_of_lt_of_le hj hl1) with ⟨e2', e3, he2', he3, hs23, hp23⟩
    rw [he2] at he2'
    injection he2' with he2e
    subst he2e
    refine ⟨e, e3, he, he3, sameShape_trans hs12 hs23, ?_⟩
    intro hch
    rw [hp23 (by rw [hs12.1]; exact hch), hp12 hch]
  · intro j hj e3 he3
    by_cases hj2 : j < st2.length
    · rcases hm2 j hj2 with ⟨e2, e3', he2, he3', hs23, _⟩
      rw [he3] at he3'
      injection he3' with he3e
      subst he3e
      rcases ha1 j hj e2 he2 with ⟨hd, hh, hc⟩
      exact ⟨by rw [hs23.2.1, hd], by rw [hs23.2.2.1, hh], by rw [hs23.1]; exact hc⟩
    · exact ha2 j (Nat.le_of_not_lt hj2) e3 he3

theorem presCh_shapeExt {loc : List Int} {st st' : List PortRec} (h : PresCh loc st st') :
    shapeExt st st' := by
  obtain ⟨hl, hm, _⟩ := h
  refine ⟨hl, fun j hj => ?_⟩
  rcases hm j hj with ⟨e, e', he, he', hs, _⟩
  exact ⟨e, e', he, he', hs⟩

theorem shapeExt_refl (st : List PortRec) : shapeExt st st := by
  refine ⟨Nat.le_refl _, fun j hj => ?_⟩
  exact ⟨st[j], st[j], List.getElem?_eq_some_iff.mpr ⟨hj, rfl⟩,
    List.getElem?_eq_some_iff.mpr ⟨hj, rfl⟩, sameShape_refl _⟩

theorem shapeExt_trans {st1 st2 st3 : List PortRec}
    (h1 : shapeExt st1 st2) (h2 : shapeExt st2 st3) : shapeExt st1 st3 := by
  obtain ⟨hl1, hm1⟩ := h1
  obtain ⟨hl2, hm2⟩ := h2
  refine ⟨Nat.le_trans hl1 hl2, fun j hj => ?_⟩
  rcases hm1 j hj with ⟨e, e2, he, he2, hs12⟩
  rcases hm2 j (Nat.lt_of_lt_of_le hj hl1) with ⟨e2', e3, he2', he3, hs23⟩
  rw [he2] at he2'
  injection he2' with he2e
  subst he2e
  exact ⟨e, e3, he, he3, sameShape_trans hs12 hs23⟩

theorem presCh_updateAt {loc : List Int} {f : PortRec → PortRec}
    (hshape : ∀ e, sameShape e (f e)) {st : List PortRec} {j : Nat} {e : PortRec}
    (hj : st[j]? = some e)
    (hst : childOf loc e.location = true → (f e).port_status = e.port_status) :
    PresCh loc st (updateAt j f st) := by
  refine ⟨by rw [updateAt_length], ?_, ?_⟩
  · intro j' hj'
    rw [getElem?_updateAt]
    by_cases hjj : j' = j
    · subst hjj
      rw [hj]
      exact ⟨e, f e, rfl, by simp, hshape e, hst⟩
    · rw [if_neg hjj]
      have h := List.getElem?_eq_some_iff.mpr ⟨hj', rfl⟩
      exact ⟨st[j'], st[j'], h, h, sameShape_refl _, fun _ => rfl⟩
  · intro j' hj' e' he'
    rw [getElem?_updateAt] at he'
    have hlen : j' < st.length := by
      by_cases hjj : j' = j
      · subst hjj
        rw [if_pos rfl] at he'
        cases hx : st[j']? with
        | none => rw [hx] at he'; cases he'
        | some _ => exact (List.getElem?_eq_some_iff.mp hx).1
      · rw [if_neg hjj] at he'
        exact (List.getElem?_eq_some_iff.mp he').1
    omega

theorem presCh_append_ghost {loc : List Int} (st : List PortRec) {g : PortRec}
    (hdev : g.dev = none) (hhub : g.is_hub = false)
    (hch : childOf loc g.location = false) : PresCh loc st (st ++ [g]) := by
  refine ⟨by simp, ?_, ?_⟩
  · intro j hj
    rw [List.getElem?_append_left hj]
    have h := List.getElem?_eq_some_iff.mpr ⟨hj, rfl⟩
    exact ⟨st[j], st[j], h, h, sameShape_refl _, fun _ => rfl⟩
  · intro j hj e' he'
    have hlt : j < st.length + 1 := by
      have := (List.getElem?_eq_some_iff.mp he').1
      simpa using this
    have hjeq : j = st.length := by omega
    subst hjeq
    rw [List.getElem?_concat_length] at he'
    injection he' with he'e
    subst he'e
    exact ⟨hdev, hhub, hch⟩

theorem presLoc_refl (l : List Int) (st : List PortRec) : presLoc l st st := by
  refine ⟨Nat.le_refl _, fun j hj => ?_⟩
  have h := List.getElem?_eq_some_iff.mpr ⟨hj, rfl⟩
  exact ⟨st[j], st[j], h, h, sameShape_refl _, fun _ => rfl⟩

theorem presLoc_trans {l : List Int} {st1 st2 st3 : List PortRec}
    (h1 : presLoc l st1 st2) (h2 : presLoc l st2 st3) : presLoc l st1 st3 := by
  obtain ⟨hl1, hm1⟩ := h1
  obtain ⟨hl2, hm2⟩ := h2
  refine ⟨Nat.le_trans hl1 hl2, fun j hj => ?_⟩
  rcases hm1 j hj with ⟨e, e2, he, he2, hs12, hp12⟩
  rcases hm2 j (Nat.lt_of_lt_of_le hj hl1) with ⟨e2', e3, he2', he3, hs23, hp23⟩
  rw [he2] at he2'
  injection he2' with he2e
  subst he2e
  refine ⟨e, e3, he, he3, sameShape_trans hs12 hs23, fun hll => ?_⟩
  rw [hp23 (by rw [hs12.1]; exact hll), hp12 hll]

theorem presLoc_updateAt {l : List Int} {f : PortRec → PortRec}
    (hshape : ∀ e, sameShape e (f e)) {st : List PortRec} {j : Nat} {e : PortRec}
    (hj : st[j]? = some e) (hne : e.location ≠ l) :
    presLoc l st (updateAt j f st) := by
  refine ⟨by rw [updateAt_length], fun j' hj' => ?_⟩
  rw [getElem?_updateAt]
  by_cases hjj : j' = j
  · subst hjj
    rw [hj]
    exact ⟨e, f e, rfl, by simp, hshape e, fun hll => absurd hll hne⟩
  · rw [if_neg hjj]
    have h := List.getElem?_eq_some_iff.mpr ⟨hj', rfl⟩
    exact ⟨st[j'], st[j'], h, h, sameShape_refl _, fun _ => rfl⟩

theorem presLoc_append (l : List Int) (st : List PortRec) (g : PortRec) :
    presLoc l st (st ++ [g]) := by
  refine ⟨by simp, fun j hj => ?_⟩
  rw [List.getElem?_append_left hj]
  have h := List.getElem?_eq_some_iff.mpr ⟨hj, rfl⟩
  exact ⟨st[j], st[j], h, h, sameShape_refl _, fun _ => rfl⟩

/-- The status-setting update of `port_scan` preserves record shape. -/
theorem scan_set_shape (fl : List Char) :
    ∀ e : PortRec, sameShape e { e with port_status := some fl } :=
  fun _ => ⟨rfl, rfl, rfl, rfl⟩

/-- The numports-setting update of `hub_step` preserves record shape. -/
theorem numports_set_shape (n : Nat) :
    ∀ e : PortRec, sameShape e { e with numports := some n } :=
  fun _ => ⟨rfl, rfl, rfl, rfl⟩

/-- Scanning the ports of a hub at location `m` leaves the children of
any other location `loc` untouched. -/
theorem port_scan_presCh (hw : Hw) (dv lvl : Nat) {m loc : List Int} (hm : m ≠ loc) :
    ∀ (pns : List Nat) (st st' : List PortRec),
      port_scan hw dv lvl m pns st = Except.ok st' → PresCh loc st st' := by
  intro pns
  induction pns with
  | nil =>
    intro st st' h
    injection h with h
    subst h
    exact presCh_refl loc st
  | cons pn rest ih =>
    intro st st' h
    unfold port_scan at h
    cases hword : hw.portStatusWord dv pn with
    | none => simp only [hword] at h; cases h
    | some w =>
      simp only [hword] at h
      cases hfind : find_loc st (m ++ [(pn : Int)]) with
      | some j =>
        simp only [hfind] at h
        rcases find_loc_some st _ j hfind with ⟨hjl, e, he, hel⟩
        refine presCh_trans (presCh_updateAt (scan_set_shape _) he ?_) (ih _ _ h)
        intro hch
        rw [hel] at hch
        rw [childOf_ne _ hm] at hch
        cases hch
      | none =>
        simp only [hfind] at h
        refine presCh_trans (presCh_append_ghost st rfl rfl ?_) (ih _ _ h)
        show childOf loc (m ++ [(pn : Int)]) = false
        exact childOf_ne _ hm

/-- Scanning ports whose child locations all differ from `l` preserves
the record at `l`. -/
theorem port_scan_presLoc (hw : Hw) (dv lvl : Nat) (m l : List Int) :
    ∀ (pns : List Nat) (st st' : List PortRec),
      (∀ pn ∈ pns, m ++ [(pn : Int)] ≠ l) →
      port_scan hw dv lvl m pns st = Except.ok st' → presLoc l st st' := by
  intro pns
  induction pns with
  | nil =>
    intro st st' _ h
    injection h with h
    subst h
    exact presLoc_refl l st
  | cons pn rest ih =>
    intro st st' hne h
    unfold port_scan at h
    cases hword : hw.portStatusWord dv pn with
    | none => simp only [hword] at h; cases h
    | some w =>
      simp only [hword] at h
      cases hfind : find_loc st (m ++ [(pn : Int)]) with
      | some j =>
        simp only [hfind] at h
        rcases find_loc_some st _ j hfind with ⟨hjl, e, he, hel⟩
        refine presLoc_trans (presLoc_updateAt (scan_set_shape _) he ?_)
          (ih _ _ (fun pn2 hpn2 => hne pn2 (List.mem_cons_of_mem pn hpn2)) h)
        rw [hel]
        exact hne pn (List.mem_cons_self pn rest)
      | none =>
        simp only [hfind] at h
        exact presLoc_trans (presLoc_append l st _)
          (ih _ _ (fun pn2 hpn2 => hne pn2 (List.mem_cons_of_mem pn hpn2)) h)

/-- Port scanning keeps locations unique. -/
theorem port_scan_nodup (hw : Hw) (dv lvl : Nat) (m : List Int) :
    ∀ (pns : List Nat) (st st' : List PortRec),
      port_scan hw dv lvl m pns st = Except.ok st' →
      (locsOf st).Nodup → (locsOf st').Nodup := by
  intro pns
  induction pns with
  | nil =>
    intro st st' h hn
    injection h with h
    subst h
    exact hn
  | cons pn rest ih =>
    intro st st' h hn
    unfold port_scan at h
    cases hword : hw.portStatusWord dv pn with
    | none => simp only [hword] at h; cases h
    | some w =>
      simp only [hword] at h
      cases hfind : find_loc st (m ++ [(pn : Int)]) with
      | some j =>
        simp only [hfind] at h
        refine ih _ _ h ?_
        have hlz := locsOf_updateAt
          (f := fun e => { e with port_status := some (usb_port_status_flags w lvl) })
          (fun e => rfl) j st
        rw [hlz]
        exact hn
      | none =>
        simp only [hfind] at h
        refine ih _ _ h ?_
        rw [locsOf_append]
        rw [List.nodup_append]
        refine ⟨hn, List.nodup_singleton _, ?_⟩
        intro x hx hx1
        rcases mem_locsOf.mp hx with ⟨e, hee, hel⟩
        have := find_loc_none.mp hfind e hee
        simp at hx1
        rw [hx1] at hel
        exact this hel

theorem shapeExt_updateAt {f : PortRec → PortRec} (hshape : ∀ e, sameShape e (f e))
    (j : Nat) (st : List PortRec) : shapeExt st (updateAt j f st) := by
  refine ⟨by rw [updateAt_length], fun j' hj' => ?_⟩
  rw [getElem?_updateAt]
  by_cases hjj : j' = j
  · subst hjj
    cases hx : st[j']? with
    | none => exact absurd hx (by simp [List.getElem?_eq_some_iff.mpr ⟨hj', rfl⟩])
    | some e => exact ⟨e, f e, rfl, by simp, hshape e⟩
  · rw [if_neg hjj]
    have h := List.getElem?_eq_some_iff.mpr ⟨hj', rfl⟩
    exact ⟨st[j'], st[j'], h, h, sameShape_refl _⟩

theorem shapeExt_append (st : List PortRec) (g : PortRec) : shapeExt st (st ++ [g]) := by
  refine ⟨by simp, fun j hj => ?_⟩
  rw [List.getElem?_append_left hj]
  have h := List.getElem?_eq_some_iff.mpr ⟨hj, rfl⟩
  exact ⟨st[j], st[j], h, h, sameShape_refl _⟩

/-- Payload of one hub's port scan: every scanned port number ends up
with a record at the child location carrying a decoded status word,
bound to the device that was already there (or ghost if none), old
records keep their shape, and every appended record is a ghost at a
scanned child location. -/
theorem port_scan_self (hw : Hw) (dv lvl : Nat) (m : List Int) :
    ∀ (pns : List Nat) (st st' : List PortRec),
      port_scan hw dv lvl m pns st = Except.ok st' →
      (locsOf st).Nodup → pns.Nodup →
      shapeExt st st' ∧
      (∀ (pn : Nat), pn ∈ pns → ∃ (j : Nat) (e' : PortRec),
        st'[j]? = some e' ∧ e'.location = m ++ [(pn : Int)] ∧
        e'.port_status.isSome = true ∧ e'.dev = devAt st (m ++ [(pn : Int)])) ∧
      (∀ j, st.length ≤ j → ∀ e', st'[j]? = some e' → e'.dev = none ∧ e'.is_hub = false ∧
        ∃ pn ∈ pns, e'.location = m ++ [(pn : Int)]) := by
  intro pns
  induction pns with
  | nil =>
    intro st st' h _ _
    injection h with h
    subst h
    refine ⟨shapeExt_refl st, by simp, ?_⟩
    intro j hj e' he'
    have := (List.getElem?_eq_some_iff.mp he').1
    omega
  | cons pn rest ih =>
    intro st st' h hnodup hpns
    have hpn_rest : pn ∉ rest := (List.nodup_cons.mp hpns).1
    have hrest_nodup : rest.Nodup := (List.nodup_cons.mp hpns).2
    have hrestne : ∀ k ∈ rest, m ++ [(k : Int)] ≠ m ++ [(pn : Int)] := by
      intro k hk heq
      have h2 := (append_singleton_inj heq).2
      have h3 : k = pn := by exact_mod_cast h2
      exact hpn_rest (h3 ▸ hk)
    unfold port_scan at h
    cases hword : hw.portStatusWord dv pn with
    | none => simp only [hword] at h; cases h
    | some w =>
      simp only [hword] at h
      cases hfind : find_loc st (m ++ [(pn : Int)]) with
      | some j0 =>
        simp only [hfind] at h
        rcases find_loc_some st _ j0 hfind with ⟨hj0, e0, he0, hel0⟩
        have hnodup1 : (locsOf (updateAt j0
            (fun e => { e with port_status := some (usb_port_status_flags w lvl) }) st)).Nodup := by
          have hlz := locsOf_updateAt
            (f := fun e => { e with port_status := some (usb_port_status_flags w lvl) })
            (fun e => rfl) j0 st
          rw [hlz]
          exact hnodup
        rcases ih _ _ h hnodup1 hrest_nodup with ⟨hshape, hkids, happ⟩
        have hpres : presLoc (m ++ [(pn : Int)]) _ st' :=
          port_scan_presLoc hw dv lvl m (m ++ [(pn : Int)]) rest _ st' hrestne h
        have hlen1 : (updateAt j0
            (fun e => { e with port_status := some (usb_port_status_flags w lvl) }) st).length
            = st.length := by rw [updateAt_length]
        have hst1j0 : (updateAt j0
            (fun e => { e with port_status := some (usb_port_status_flags w lvl) }) st)[j0]? =
            some { e0 with port_status := some (usb_port_status_flags w lvl) } := by
          rw [getElem?_updateAt, if_pos rfl, he0]
          rfl
        have hdevAt : devAt st (m ++ [(pn : Int)]) = e0.dev := by
          unfold devAt
          simp only [hfind]
          rw [List.getD_eq_getElem?_getD, he0]
          rfl
        refine ⟨shapeExt_trans (shapeExt_updateAt (scan_set_shape _) j0 st) hshape, ?_, ?_⟩
        · intro k hk
          rcases List.mem_cons.mp hk with hkpn | hkrest
          · subst hkpn
            rcases hpres.2 j0 (by omega) with ⟨e, e'', he, he'', hs, hp⟩
            rw [hst1j0] at he
            injection he with hee
            subst hee
            refine ⟨j0, e'', he'', ?_, ?_, ?_⟩
            · rw [hs.1]
              exact hel0
            · rw [hp hel0]
              rfl
            · rw [hs.2.1, hdevAt]
          · rcases hkids k hkrest with ⟨j, e', hje, hl, hst, hdev⟩
            refine ⟨j, e', hje, hl, hst, ?_⟩
            rw [hdev, devAt_updateAt
              (f := fun e => { e with port_status := some (usb_port_status_flags w lvl) })
              (fun e => rfl) (fun e => rfl) j0 st]
        · intro j hj e' he'
          rcases happ j (by omega) e' he' with ⟨h1, h2, k, hk, h3⟩
          exact ⟨h1, h2, k, List.mem_cons_of_mem pn hk, h3⟩
      | none =>
        simp only [hfind] at h
        have hfresh : (m ++ [(pn : Int)]) ∉ locsOf st := by
          intro hx
          rcases mem_locsOf.mp hx with ⟨e, hee, hel⟩
          exact find_loc_none.mp hfind e hee hel
        have hnodup1 : (locsOf (st ++
            [ { location := m ++ [(pn : Int)],
                port_status := some (usb_port_status_flags w lvl) } ])).Nodup := by
          rw [locsOf_append, List.nodup_append]
          exact ⟨hnodup, List.nodup_singleton _, by
            intro x hx hx1
            simp at hx1
            rw [hx1] at hx
            exact hfresh hx⟩
        rcases ih _ _ h hnodup1 hrest_nodup with ⟨hshape, hkids, happ⟩
        have hpres : presLoc (m ++ [(pn : Int)]) _ st' :=
          port_scan_presLoc hw dv lvl m (m ++ [(pn : Int)]) rest _ st' hrestne h
        have hg : (st ++
            [ { location := m ++ [(pn : Int)],
                port_status := some (usb_port_status_flags w lvl) } ])[st.length]? =
            some { location := m ++ [(pn : Int)],
                   port_status := some (usb_port_status_flags w lvl) } :=
          List.getElem?_concat_length st _
        have hdevAt : devAt st (m ++ [(pn : Int)]) = none := devAt_none_of_find_none hfind
        refine ⟨shapeExt_trans (shapeExt_append st _) hshape, ?_, ?_⟩
        · intro k hk
          rcases List.mem_cons.mp hk with hkpn | hkrest
          · subst hkpn
            rcases hpres.2 st.length (by simp) with ⟨e, e'', he, he'', hs, hp⟩
            rw [hg] at he
            injection he with hee
            subst hee
            refine ⟨st.length, e'', he'', ?_, ?_, ?_⟩
            · rw [hs.1]
            · rw [hp rfl]
              rfl
            · rw [hs.2.1, hdevAt]
          · rcases hkids k hkrest with ⟨j, e', hje, hl, hst, hdev⟩
            refine ⟨j, e', hje, hl, hst, ?_⟩
            rw [hdev, devAt_append_ne st
              (show m ++ [(pn : Int)] ≠ m ++ [(k : Int)] from
                fun hq => hrestne k hkrest hq.symm)]
        · intro j hj e' he'
          by_cases hj1 : j < st.length + 1
          · have hjeq : j = st.length := by omega
            subst hjeq
            rcases hshape.2 st.length (by simp) with ⟨e, e'', he, he'', hs⟩
            rw [hg] at he
            injection he with hee
            subst hee
            rw [he'] at he''
            injection he'' with he''e
            subst he''e
            refine ⟨by rw [hs.2.1], by rw [hs.2.2.1], pn, List.mem_cons_self pn rest, by rw [hs.1]⟩
          · rcases happ j (by simp; omega) e' he' with ⟨h1, h2, k, hk, h3⟩
            exact ⟨h1, h2, k, List.mem_cons_of_mem pn hk, h3⟩

/-- A hub step at an index whose record is not the hub at `loc` leaves
`loc`'s children untouched. -/
theorem hub_step_presCh (loc : List Int) {hw : Hw} {st st' : List PortRec} {i : Nat}
    {evs : List Ev} (hstep : hub_step hw st i = (evs, Except.ok st'))
    (hcond : ∀ d, st[i]? = some d → d.is_hub = true → d.location ≠ loc) :
    PresCh loc st st' := by
  unfold hub_step at hstep
  cases hi : st[i]? with
  | none =>
    simp only [hi] at hstep
    rw [Prod.mk.injEq] at hstep
    injection hstep.2 with h2
    subst h2
    exact presCh_refl loc _
  | some d =>
    simp only [hi] at hstep
    by_cases hhub : d.is_hub = true
    · rw [if_pos hhub] at hstep
      cases hdev : d.dev with
      | none =>
        simp only [hdev] at hstep
        rw [Prod.mk.injEq] at hstep
        cases hstep.2
      | some dv =>
        simp only [hdev] at hstep
        by_cases ho : hw.openOk dv = true
        · rw [if_pos ho] at hstep
          cases hn : hw.numports dv d.usb_level with
          | none =>
            simp only [hn] at hstep
            rw [Prod.mk.injEq] at hstep
            injection hstep.2 with h2
            subst h2
            exact presCh_refl loc _
          | some n =>
            simp only [hn] at hstep
            rw [Prod.mk.injEq] at hstep
            have hne : d.location ≠ loc := hcond d hi hhub
            refine presCh_trans (presCh_updateAt (numports_set_shape n) hi (fun _ => rfl)) ?_
            exact port_scan_presCh hw dv d.usb_level hne _ _ _ hstep.2
        · rw [if_neg ho] at hstep
          rw [Prod.mk.injEq] at hstep
          cases hstep.2
    · rw [if_neg hhub] at hstep
      rw [Prod.mk.injEq] at hstep
      injection hstep.2 with h2
      subst h2
      exact presCh_refl loc _

/-- A successful hub step keeps locations unique. -/
theorem hub_step_nodup {hw : Hw} {st st' : List PortRec} {i : Nat} {evs : List Ev}
    (hstep : hub_step hw st i = (evs, Except.ok st'))
    (hnodup : (locsOf st).Nodup) : (locsOf st').Nodup := by
  unfold hub_step at hstep
  cases hi : st[i]? with
  | none =>
    simp only [hi] at hstep
    rw [Prod.mk.injEq] at hstep
    injection hstep.2 with h2
    subst h2
    exact hnodup
  | some d =>
    simp only [hi] at hstep
    by_cases hhub : d.is_hub = true
    · rw [if_pos hhub] at hstep
      cases hdev : d.dev with
      | none =>
        simp only [hdev] at hstep
        rw [Prod.mk.injEq] at hstep
        cases hstep.2
      | some dv =>
        simp only [hdev] at hstep
        by_cases ho : hw.openOk dv = true
        · rw [if_pos ho] at hstep
          cases hn : hw.numports dv d.usb_level with
          | none =>
            simp only [hn] at hstep
            rw [Prod.mk.injEq] at hstep
            injection hstep.2 with h2
            subst h2
            exact hnodup
          | some n =>
            simp only [hn] at hstep
            rw [Prod.mk.injEq] at hstep
            refine port_scan_nodup hw dv d.usb_level d.location _ _ _ hstep.2 ?_
            have hlz := locsOf_updateAt (f := fun e => { e with numports := some n })
              (fun e => rfl) i st
            rw [hlz]
            exact hnodup
        · rw [if_neg ho] at hstep
          rw [Prod.mk.injEq] at hstep
          cases hstep.2
    · rw [if_neg hhub] at hstep
      rw [Prod.mk.injEq] at hstep
      injection hstep.2 with h2
      subst h2
      exact hnodup

/-- Payload of the hub's own step: with a descriptor reporting `n`
ports, every port number 1..n ends up with a statused record at the
hub's child location, bound to the previously enumerated device there
(ghost if none); old records keep their shape; appended records are
ghosts at child locations 1..n. -/
theorem hub_step_self {loc : List Int} {hw : Hw} {st st' : List PortRec} {i : Nat}
    {evs : List Ev} {d : PortRec} {dv n : Nat}
    (hi : st[i]? = some d) (hloc : d.location = loc) (hhub : d.is_hub = true)
    (hdev : d.dev = some dv) (hn : hw.numports dv d.usb_level = some n)
    (hnodup : (locsOf st).Nodup)
    (hstep : hub_step hw st i = (evs, Except.ok st')) :
    shapeExt st st' ∧
    (∀ (pn : Nat), 1 ≤ pn → pn ≤ n → ∃ (j : Nat) (e' : PortRec),
      st'[j]? = some e' ∧ e'.location = loc ++ [(pn : Int)] ∧
      e'.port_status.isSome = true ∧ e'.dev = devAt st (loc ++ [(pn : Int)])) ∧
    (∀ j, st.length ≤ j → ∀ e', st'[j]? = some e' → e'.dev = none ∧ e'.is_hub = false ∧
      ∃ (pn : Nat), 1 ≤ pn ∧ pn ≤ n ∧ e'.location = loc ++ [(pn : Int)]) := by
  unfold hub_step at hstep
  simp only [hi, if_pos hhub, hdev] at hstep
  by_cases ho : hw.openOk dv = true
  · rw [if_pos ho] at hstep
    simp only [hn] at hstep
    rw [Prod.mk.injEq] at hstep
    have hscan := hstep.2
    have hnodup1 : (locsOf (updateAt i (fun e => { e with numports := some n }) st)).Nodup := by
      have hlz := locsOf_updateAt (f := fun e => { e with numports := some n })
        (fun e => rfl) i st
      rw [hlz]
      exact hnodup
    rcases port_scan_self hw dv d.usb_level d.location (List.range' 1 n) _ st'
      hscan hnodup1 (List.nodup_range' 1 n) with ⟨hshape, hkids, happ⟩
    have hlen1 : (updateAt i (fun e => { e with numports := some n }) st).length
        = st.length := by rw [updateAt_length]
    have hdeveq : ∀ l, devAt (updateAt i (fun e => { e with numports := some n }) st) l
        = devAt st l := fun l =>
      devAt_updateAt (f := fun e => { e with numports := some n })
        (fun e => rfl) (fun e => rfl) i st l
    refine ⟨shapeExt_trans (shapeExt_updateAt (numports_set_shape n) i st) hshape, ?_, ?_⟩
    · intro pn h1 h2
      rcases hkids pn (by rw [List.mem_range'_1]; omega) with ⟨j, e', hje, hl, hst, hdev'⟩
      refine ⟨j, e', hje, by rw [hl, hloc], hst, ?_⟩
      rw [hdev', hdeveq, hloc]
    · intro j hj e' he'
      rcases happ j (by rw [hlen1]; exact hj) e' he' with ⟨h1, h2, pn, hpn, h3⟩
      rw [List.mem_range'_1] at hpn
      exact ⟨h1, h2, pn, by omega, by omega, by rw [h3, hloc]⟩
  · rw [if_neg ho] at hstep
    rw [Prod.mk.injEq] at hstep
    cases hstep.2

/-- A successful run over concatenated index lists splits into two
successful runs. -/
theorem run_hubs_split (hw : Hw) : ∀ (xs ys : List Nat) (st out : List PortRec)
    (evs : List Ev), run_hubs hw (xs ++ ys) st = (evs, Except.ok out) →
    ∃ st1 evs1 evs2, run_hubs hw xs st = (evs1, Except.ok st1) ∧
      run_hubs hw ys st1 = (evs2, Except.ok out) ∧ evs = evs1 ++ evs2 := by
  intro xs
  induction xs with
  | nil =>
    intro ys st out evs h
    exact ⟨st, [], evs, rfl, h, rfl⟩
  | cons x xs ih =>
    intro ys st out evs h
    rw [List.cons_append] at h
    unfold run_hubs at h
    rcases hr : (hub_step hw st x).2 with er | st0
    · simp only [hr] at h
      rw [Prod.mk.injEq] at h
      cases h.2
    · simp only [hr] at h
      rcases hx : run_hubs hw (xs ++ ys) st0 with ⟨evsr, res⟩
      simp only [hx] at h
      rw [Prod.mk.injEq] at h
      obtain ⟨hevs, hrec⟩ := h
      subst hrec
      rcases ih ys st0 out evsr hx with ⟨st1, evs1, evs2, ha, hb, hc⟩
      refine ⟨st1, (hub_step hw st x).1 ++ evs1, evs2, ?_, hb, ?_⟩
      · show run_hubs hw (x :: xs) st = _
        unfold run_hubs
        simp only [hr, ha]
      · rw [← hevs, hc, List.append_assoc]

/-- A successful run keeps locations unique. -/
theorem run_hubs_nodup (hw : Hw) : ∀ (I : List Nat) (st out : List PortRec) (evs : List Ev),
    run_hubs hw I st = (evs, Except.ok out) → (locsOf st).Nodup → (locsOf out).Nodup := by
  intro I
  induction I with
  | nil =>
    intro st out evs h hn
    rw [Prod.mk.injEq] at h
    injection h.2 with h2
    subst h2
    exact hn
  | cons i rest ih =>
    intro st out evs h hn
    unfold run_hubs at h
    rcases hr : (hub_step hw st i).2 with er | st0
    · simp only [hr] at h
      rw [Prod.mk.injEq] at h
      cases h.2
    · simp only [hr] at h
      rcases hx : run_hubs hw rest st0 with ⟨evsr, res⟩
      simp only [hx] at h
      rw [Prod.mk.injEq] at h
      obtain ⟨hevs, hrec⟩ := h
      subst hrec
      have hstep : hub_step hw st i = ((hub_step hw st i).1, Except.ok st0) := by
        rw [← hr]
      exact ih st0 out evsr hx (hub_step_nodup hstep hn)

/-- A successful run over indices that never hit the hub at `loc`
leaves `loc`'s children untouched. -/
theorem run_hubs_presCh (hw : Hw) (loc : List Int) :
    ∀ (I : List Nat) (st out : List PortRec) (evs : List Ev),
    run_hubs hw I st = (evs, Except.ok out) →
    (∀ i ∈ I, ∀ d, st[i]? = some d → d.is_hub = true → d.location ≠ loc) →
    PresCh loc st out := by
  intro I
  induction I with
  | nil =>
    intro st out evs h _
    rw [Prod.mk.injEq] at h
    injection h.2 with h2
    subst h2
    exact presCh_refl loc _
  | cons i rest ih =>
    intro st out evs h hcond
    unfold run_hubs at h
    rcases hr : (hub_step hw st i).2 with er | st0
    · simp only [hr] at h
      rw [Prod.mk.injEq] at h
      cases h.2
    · simp only [hr] at h
      rcases hx : run_hubs hw rest st0 with ⟨evsr, res⟩
      simp only [hx] at h
      rw [Prod.mk.injEq] at h
      obtain ⟨hevs, hrec⟩ := h
      subst hrec
      have hstep : hub_step hw st i = ((hub_step hw st i).1, Except.ok st0) := by
        rw [← hr]
      have hp1 : PresCh loc st st0 :=
        hub_step_presCh loc hstep (hcond i (List.mem_cons_self i rest))
      refine presCh_trans hp1 (ih st0 out evsr hx ?_)
      intro i2 hi2 d2 hd2 hhub2
      by_cases hlt : i2 < st.length
      · rcases hp1.2.1 i2 hlt with ⟨e, e', he, he', hs, _⟩
        rw [hd2] at he'
        injection he' with he'e
        subst he'e
        rw [hs.1]
        refine hcond i2 (List.mem_cons_of_mem i hi2) e he ?_
        rw [← hs.2.2.1]
        exact hhub2
      · rcases hp1.2.2 i2 (Nat.le_of_not_lt hlt) d2 hd2 with ⟨_, hh, _⟩
        rw [hhub2] at hh
        cases hh

/-- Evolution away from `loc`'s children preserves the device bound at
any child location of `loc`. -/
theorem presCh_devAt {loc : List Int} {st st' : List PortRec} (h : PresCh loc st st')
    {l : List Int} (hch : childOf loc l = true) : devAt st' l = devAt st l := by
  obtain ⟨hlen, hmid, happ⟩ := h
  have hfind : find_loc st' l = find_loc st l := by
    refine find_loc_ext st st' l hlen ?_ ?_
    · intro j hj
      rcases hmid j hj with ⟨e, e', he, he', hs, _⟩
      rw [he, he']
      simp [hs.1]
    · intro j hj e' he' hel
      rcases happ j hj e' he' with ⟨_, _, hc⟩
      rw [hel, hch] at hc
      cases hc
  unfold devAt
  rw [hfind]
  cases hf : find_loc st l with
  | none => rfl
  | some j =>
    rcases find_loc_some st l j hf with ⟨hj, e, he, hel⟩
    rcases hmid j hj with ⟨e2, e2', he2, he2', hs, _⟩
    show (st'.getD j {}).dev = (st.getD j {}).dev
    rw [List.getD_eq_getElem?_getD, List.getD_eq_getElem?_getD, he2, he2']
    exact hs.2.1

/-- A one-index run is exactly one hub step. -/
theorem run_hubs_single (hw : Hw) (i : Nat) (st out : List PortRec) (evs : List Ev)
    (h : run_hubs hw [i] st = (evs, Except.ok out)) :
    hub_step hw st i = (evs, Except.ok out) := by
  unfold run_hubs at h
  rcases hr : (hub_step hw st i).2 with er | st0
  · simp only [hr] at h
    rw [Prod.mk.injEq] at h
    cases h.2
  · simp only [hr, run_hubs] at h
    rw [Prod.mk.injEq] at h
    obtain ⟨h1, h2⟩ := h
    injection h2 with h2
    subst h2
    rw [List.append_nil] at h1
    have heta : hub_step hw st i = ((hub_step hw st i).1, (hub_step hw st i).2) := rfl
    rw [heta, hr, h1]

/-- Claim C7 (confirmed).  When the topology build (`update_hubs`)
succeeds and a hub's descriptor reports `n` ports, the built list has
exactly `n` child entries under that hub, at child indices 1..n and
nowhere else, each carrying decoded status flags; a child index whose
location was already enumerated keeps that record's bound device, and
every other child index is a ghost (its bound device is `devAt ports
(...) = none`). -/
theorem claim_C7 (hw : Hw) (ports out : List PortRec) (evs : List Ev)
    (i : Nat) (d : PortRec) (dv n : Nat)
    (hrun : update_hubs hw ports = (evs, Except.ok out))
    (hi : ports[i]? = some d)
    (hhub : d.is_hub = true) (hdev : d.dev = some dv)
    (hn : hw.numports dv d.usb_level = some n)
    (hnodup : (locsOf ports).Nodup)
    (hkids : ∀ e ∈ ports, childOf d.location e.location = true →
      ∃ k : Int, 1 ≤ k ∧ k ≤ (n : Int) ∧ e.location = d.location ++ [k]) :
    ((out.filter (fun e => childOf d.location e.location)).length = n) ∧
    (∀ k : Int, 1 ≤ k → k ≤ (n : Int) →
      ∃ e ∈ out, e.location = d.location ++ [k] ∧ e.port_status.isSome = true ∧
        e.dev = devAt ports (d.location ++ [k])) ∧
    (locsOf out).Nodup ∧
    (∀ e ∈ out, childOf d.location e.location = true →
      ∃ k : Int, 1 ≤ k ∧ k ≤ (n : Int) ∧ e.location = d.location ++ [k]) := by
  have hiLt : i < ports.length := (List.getElem?_eq_some_iff.mp hi).1
  unfold update_hubs at hrun
  have hA : (List.range i ++ [i]) ++ List.range' (i + 1) (ports.length - (i + 1)) =
      List.range ports.length := by
    rw [List.range_eq_range', List.range_eq_range']
    have h1 : List.range' 0 i ++ [i] = List.range' 0 (i + 1) := by
      have h0 := List.range'_append_1 0 i 1
      simp only [Nat.zero_add, List.range'_one] at h0
      rw [Nat.add_comm 1 i] at h0
      exact h0
    have h2 := List.range'_append_1 0 (i + 1) (ports.length - (i + 1))
    simp only [Nat.zero_add] at h2
    rw [List.append_assoc, show List.range' 0 i = List.range' 0 i from rfl]
    rw [← List.append_assoc, h1, h2]
    congr 1
    omega
  rw [← hA] at hrun
  rcases run_hubs_split hw (List.range i ++ [i]) _ ports out evs hrun with
    ⟨st2, evsA, evsB, hrunA, hrunB, hevsAB⟩
  rcases run_hubs_split hw (List.range i) [i] ports st2 evsA hrunA with
    ⟨st1, evs1, evs2, hrunPre, hrunMid, hevs12⟩
  have hpre : PresCh d.location ports st1 := by
    refine run_hubs_presCh hw d.location (List.range i) ports st1 evs1 hrunPre ?_
    intro i2 hi2 d2 hd2 _
    rw [List.mem_range] at hi2
    exact nodup_loc_ne hnodup (Nat.ne_of_lt hi2) hd2 hi
  have hnodup1 : (locsOf st1).Nodup := run_hubs_nodup hw _ ports st1 evs1 hrunPre hnodup
  rcases hpre.2.1 i hiLt with ⟨e0, d1, he0, hd1, hs1, _⟩
  rw [hi] at he0
  injection he0 with he0e
  subst he0e
  have hstepMid : hub_step hw st1 i = (evs2, Except.ok st2) :=
    run_hubs_single hw i st1 st2 evs2 hrunMid
  rcases hub_step_self hd1 hs1.1
    (by rw [hs1.2.2.1]; exact hhub) (by rw [hs1.2.1]; exact hdev)
    (by rw [hs1.2.2.2]; exact hn) hnodup1 hstepMid with ⟨hshapeMid, hkidsMid, happMid⟩
  have hnodup2 : (locsOf st2).Nodup := hub_step_nodup hstepMid hnodup1
  have hnodupOut : (locsOf out).Nodup := run_hubs_nodup hw _ st2 out evsB hrunB hnodup2
  have hshapeFull : shapeExt ports st2 := shapeExt_trans (presCh_shapeExt hpre) hshapeMid
  have hlen01 : ports.length ≤ st1.length := hpre.1
  have hlen12 : st1.length ≤ st2.length := hshapeMid.1
  have hpost : PresCh d.location st2 out := by
    refine run_hubs_presCh hw d.location _ st2 out evsB hrunB ?_
    intro i2 hi2 d2 hd2 hhub2
    rw [List.mem_range'_1] at hi2
    have hi2lt : i2 < ports.length := by omega
    rcases hshapeFull.2 i2 hi2lt with ⟨e2, e2', he2, he2', hs2⟩
    rw [hd2] at he2'
    injection he2' with he2e
    subst he2e
    rw [hs2.1]
    exact nodup_loc_ne hnodup (by omega) he2 hi
  have hdevChain : ∀ l, childOf d.location l = true → devAt st1 l = devAt ports l :=
    fun l hch => presCh_devAt hpre hch
  -- conclusion (2)
  have hconc2 : ∀ k : Int, 1 ≤ k → k ≤ (n : Int) →
      ∃ e ∈ out, e.location = d.location ++ [k] ∧ e.port_status.isSome = true ∧
        e.dev = devAt ports (d.location ++ [k]) := by
    intro k hk1 hk2
    have hkcast : ((k.toNat : Nat) : Int) = k := by omega
    rcases hkidsMid k.toNat (by omega) (by omega) with ⟨j, e', hje, hl, hst, hdevv⟩
    have hjlt : j < st2.length := (List.getElem?_eq_some_iff.mp hje).1
    rcases hpost.2.1 j hjlt with ⟨e2, e'', he2, he'', hs2, hp2⟩
    rw [hje] at he2
    injection he2 with he2e
    subst he2e
    have hch : childOf d.location e'.location = true := by
      rw [hl]
      exact childOf_self_append _ _
    refine ⟨e'', List.mem_iff_getElem?.mpr ⟨j, he''⟩, ?_, ?_, ?_⟩
    · rw [hs2.1, hl, hkcast]
    · rw [hp2 hch, hst]
    · rw [hs2.2.1, hdevv, hdevChain _ (by rw [← hl]; exact hch), hkcast]
  -- conclusion (4)
  have hconc4 : ∀ e ∈ out, childOf d.location e.location = true →
      ∃ k : Int, 1 ≤ k ∧ k ≤ (n : Int) ∧ e.location = d.location ++ [k] := by
    intro e he hch
    rcases List.getElem?_of_mem he with ⟨j, hj⟩
    by_cases hj0 : j < ports.length
    · rcases hshapeFull.2 j hj0 with ⟨ep, e2, hep, he2, hs2⟩
      have hjlt2 : j < st2.length := (List.getElem?_eq_some_iff.mp he2).1
      rcases hpost.2.1 j hjlt2 with ⟨e2', eo, he2', heo, hs3, _⟩
      rw [he2] at he2'
      injection he2' with he2e
      subst he2e
      rw [hj] at heo
      injection heo with heoe
      subst heoe
      have hloce : e.location = ep.location := by rw [hs3.1, hs2.1]
      refine hkids ep (List.mem_iff_getElem?.mpr ⟨j, hep⟩) ?_ |>.imp ?_
      · rw [← hloce]
        exact hch
      · intro k hk
        exact ⟨hk.1, hk.2.1, by rw [hloce]; exact hk.2.2⟩
    · by_cases hj1 : j < st1.length
      · rcases hpre.2.2 j (by omega) with h3
        rcases hshapeMid.2 j hj1 with ⟨g, g2, hg, hg2, hsg⟩
        have hjlt2 : j < st2.length := (List.getElem?_eq_some_iff.mp hg2).1
        rcases hpost.2.1 j hjlt2 with ⟨g2', go, hg2', hgo, hsg2, _⟩
        rw [hg2] at hg2'
        injection hg2' with hg2e
        subst hg2e
        rw [hj] at hgo
        injection hgo with hgoe
        subst hgoe
        rcases h3 g hg with ⟨_, _, hgch⟩
        rw [hsg2.1, hsg.1] at hch
        rw [hch] at hgch
        cases hgch
      · by_cases hj2 : j < st2.length
        · rcases hpost.2.1 j hj2 with ⟨g2, go, hg2, hgo, hsg2, _⟩
          rw [hj] at hgo
          injection hgo with hgoe
          subst hgoe
          rcases happMid j (by omega) g2 hg2 with ⟨_, _, pn, hpn1, hpn2, hpn3⟩
          refine ⟨(pn : Int), by omega, by omega, ?_⟩
          rw [hsg2.1, hpn3]
        · rcases hpost.2.2 j (by omega) e hj with ⟨_, _, hcf⟩
          rw [hch] at hcf
          cases hcf
  refine ⟨?_, hconc2, hnodupOut, hconc4⟩
  exact length_filter_children hnodupOut hconc4
    (fun k hk1 hk2 => by
      rcases hconc2 k hk1 hk2 with ⟨e, he, hl, _, _⟩
      exact ⟨e, he, hl⟩)

/-- Hardware for the C7 witness: device 0 is a 4-port hub whose port 2
reports 0x0103 (powered, connected, enabled) and whose other ports
report 0x0100 (powered only). -/
def hw7 : Hw :=
  { openOk := fun _ => true,
    numports := fun dv _ => if dv = 0 then some 4 else none,
    portStatusWord := fun _ pn => some (if pn = 2 then 0x0103 else 0x0100),
    featureOk := fun _ => true, resetOk := fun _ => true }

/-- Enumerated list for the C7 witness: the hub at bus 1 and one
enumerated device on its port 2. -/
def ports7 : List PortRec :=
  [ { dev := some 0, location := [1], usb_level := 2, is_hub := true },
    { dev := some 1, location := [1, 2], usb_level := 2 } ]

/-- Result of `update_hubs hw7 ports7`: the hub gains its port count,
the enumerated child gains its decoded status, and ports 1, 3 and 4
appear as powered ghosts. -/
def out7 : List PortRec :=
  [ { dev := some 0, location := [1], usb_level := 2, is_hub := true, numports := some 4 },
    { dev := some 1, location := [1, 2], usb_level := 2, port_status := some ['P', 'C', 'E'] },
    { location := [1, 1], port_status := some ['P'] },
    { location := [1, 3], port_status := some ['P'] },
    { location := [1, 4], port_status := some ['P'] } ]

/-- Witness for C7: in the concrete 4-port scenario the built list has
exactly 4 children of the hub, child index 2 keeps its enumerated
device with a decoded status, and the locations stay duplicate-free. -/
theorem claim_C7_witness :
    ((out7.filter (fun e => childOf [(1 : Int)] e.location)).length = 4) ∧
    (∃ e ∈ out7, e.location = [(1 : Int), 2] ∧ e.port_status.isSome = true ∧
      e.dev = devAt ports7 [(1 : Int), 2]) ∧
    (locsOf out7).Nodup := by
  have h := claim_C7 hw7 ports7 out7 [Ev.openCtl 0] 0
      { dev := some 0, location := [1], usb_level := 2, is_hub := true } 0 4
      (by decide) (by decide) (by decide) (by decide) (by decide) (by decide)
      (by
        intro e he hch
        simp only [ports7, List.mem_cons, List.not_mem_nil, or_false] at he
        rcases he with rfl | rfl
        · exact absurd hch (by decide)
        · exact ⟨2, by decide, by decide, by decide⟩)
  exact ⟨h.1, h.2.1 2 (by decide) (by decide), h.2.2.1⟩
